import Mathlib

/-!
Verification development for the `code-quick-refer` reference resolver and
HTML formatter.  Text is modelled as `List Char` (the `.data` of a string);
the JavaScript whitespace class `\s` is modelled by the ASCII whitespace
characters.  Scanning loops whose cursor advances by a computed amount are
given explicit fuel (bounded by the input length) so that every definition
is kernel-computable; fuel-independence is proved from the cursor-progress
lemmas.
-/

namespace CQR

abbrev Str := List Char

/-- ASCII model of the JavaScript `\s` character class / `trim` whitespace. -/
def isWs (c : Char) : Bool :=
  c = ' ' || c = '\t' || c = '\n' || c = '\r' || c = '\x0b' || c = '\x0c'

def isAsciiLetter (c : Char) : Bool :=
  ('A' ≤ c && c ≤ 'Z') || ('a' ≤ c && c ≤ 'z')

def isAsciiDigit (c : Char) : Bool :=
  '0' ≤ c && c ≤ '9'

/-- The JavaScript `\w` class: letters, digits, underscore. -/
def isWordCh (c : Char) : Bool :=
  isAsciiLetter c || isAsciiDigit c || c = '_'

/-- Characters allowed after the first letter of an HTML tag name
(`[\w:-]` in the source regexes). -/
def isTagNameCh (c : Char) : Bool :=
  isWordCh c || c = ':' || c = '-'

/-- JavaScript `String.prototype.trim` (ASCII whitespace model). -/
def trimStr (s : Str) : Str :=
  ((s.dropWhile isWs).reverse.dropWhile isWs).reverse

/-- Lower-case a JS string (ASCII `toLowerCase`). -/
def lcs (s : Str) : Str := s.map Char.toLower

/-- First index of `l` at which `pat` occurs as a prefix. -/
def subIndex (pat : Str) : Str → Option Nat
  | [] => if pat.isPrefixOf ([] : Str) then some 0 else none
  | c :: cs =>
      if pat.isPrefixOf (c :: cs) then some 0 else (subIndex pat cs).map (· + 1)

/-- JavaScript `haystack.indexOf(pat, i)`: the least index `j ≥ i` at which
`pat` occurs in `s`, if any. -/
def findFrom (s pat : Str) (i : Nat) : Option Nat :=
  (subIndex pat (s.drop i)).map (· + i)

theorem subIndex_spec (pat : Str) :
    ∀ (l : Str) (j : Nat), subIndex pat l = some j → pat.isPrefixOf (l.drop j) := by
  intro l
  induction l with
  | nil =>
      intro j h
      unfold subIndex at h
      split at h
      · cases h; assumption
      · cases h
  | cons c cs ih =>
      intro j h
      unfold subIndex at h
      split at h
      · cases h; assumption
      · simp only [Option.map_eq_some'] at h
        obtain ⟨j0, hj0, rfl⟩ := h
        simpa using ih j0 hj0

theorem findFrom_ge (s pat : Str) (i : Nat) :
    ∀ j, findFrom s pat i = some j → i ≤ j ∧ pat.isPrefixOf (s.drop j) := by
  intro j h
  unfold findFrom at h
  simp only [Option.map_eq_some'] at h
  obtain ⟨j0, hj0, rfl⟩ := h
  have hpre := subIndex_spec pat _ _ hj0
  rw [List.drop_drop, Nat.add_comm] at hpre
  exact ⟨Nat.le_add_left _ _, hpre⟩

theorem prefixOf_length_le {a b : Str} (h : a.isPrefixOf b) : a.length ≤ b.length :=
  (List.isPrefixOf_iff_prefix.mp h).length_le

theorem dropWhileLen (p : Char → Bool) (l : List Char) :
    (l.dropWhile p).length ≤ l.length :=
  (l.dropWhile_sublist p).length_le

theorem findFrom_in_bounds (s pat : Str) (i j : Nat) (hp : pat ≠ [])
    (h : findFrom s pat i = some j) :
    i ≤ j ∧ j + pat.length ≤ s.length := by
  obtain ⟨hij, hpre⟩ := findFrom_ge s pat i j h
  refine ⟨hij, ?_⟩
  have h1 := prefixOf_length_le hpre
  have h2 : 0 < pat.length := List.length_pos.mpr hp
  rw [List.length_drop] at h1
  omega

/-! ## HTML formatter: data model (htmlFormatter.ts lines 5-32) -/

def INDENT : Str := "  ".data

def VOID_ELEMENTS : List Str :=
  ["area", "base", "br", "col", "embed", "hr", "img", "input", "link", "meta",
   "param", "source", "track", "wbr"].map String.data

def RAW_TEXT_ELEMENTS : List Str := ["style", "script"].map String.data

def PRESERVE_WHITESPACE_ELEMENTS : List Str := ["pre", "code", "textarea"].map String.data

inductive Token where
  | startTag (tagName : Str) (attributes : Str) (selfClosing : Bool)
  | endTag (tagName : Str)
  | text (content : Str)
  | comment (content : Str)
  | doctype (content : Str)
  | rawText (tagName : Str) (attributes : Str) (content : Str)
deriving DecidableEq, Repr

mutual

/-- `normalizeAttributes` step 1: collapse each whitespace run to one space
(`replace(/\s+/g, ' ')`).  `collapseSkipWs` consumes the remainder of a
whitespace run whose first character has just been replaced by a space. -/
def collapseWs : Str → Str
  | [] => []
  | c :: cs => if isWs c then ' ' :: collapseSkipWs cs else c :: collapseWs cs

def collapseSkipWs : Str → Str
  | [] => []
  | c :: cs => if isWs c then collapseSkipWs cs else c :: collapseWs cs

end

/-- htmlFormatter.ts lines 68-70. -/
def normalizeAttributes (attrs : Str) : Str := trimStr (collapseWs attrs)

/-- The regex `^<\/([A-Za-z][\w:-]*)\s*>` of the end-tag branch: the captured
(not yet lower-cased) name together with the match length.  The name is the
leading letter plus the following run of `[\w:-]` characters; after it only
whitespace may precede the closing `>`. -/
def endTagMatch (s : Str) : Option (Str × Nat) :=
  match s with
  | '<' :: '/' :: c :: rest =>
      if isAsciiLetter c then
        match (rest.dropWhile isTagNameCh).dropWhile isWs with
        | '>' :: _ =>
            some (c :: rest.takeWhile isTagNameCh,
              2 + (c :: rest.takeWhile isTagNameCh).length
                + ((rest.dropWhile isTagNameCh).takeWhile isWs).length + 1)
        | _ => none
      else none
  | _ => none

/-- The regex `^<([A-Za-z][\w:-]*)([^>]*?)(\/?)>` of the start-tag branch:
(name, raw attribute text, trailing-slash flag, match length).  The lazy
`[^>]*?` makes the match end at the first `>` after the tag name; a trailing
`/` immediately before that `>` is captured by the third group. -/
def startTagMatch (s : Str) : Option (Str × Str × Bool × Nat) :=
  match s with
  | '<' :: c :: rest =>
      if isAsciiLetter c then
        match findFrom (rest.dropWhile isTagNameCh) ">".data 0 with
        | none => none
        | some k =>
            if ((rest.dropWhile isTagNameCh).take k).getLast? = some '/' then
              some (c :: rest.takeWhile isTagNameCh,
                ((rest.dropWhile isTagNameCh).take k).dropLast, true,
                1 + (c :: rest.takeWhile isTagNameCh).length + k + 1)
            else
              some (c :: rest.takeWhile isTagNameCh,
                (rest.dropWhile isTagNameCh).take k, false,
                1 + (c :: rest.takeWhile isTagNameCh).length + k + 1)
      else none
  | _ => none

/-- One position of the case-insensitive raw-text close pattern
`new RegExp('</' + tagName + '\\s*>', 'i')`. -/
def rawCloseLen (tag s : Str) : Option Nat :=
  match s with
  | '<' :: '/' :: rest =>
      if lcs (rest.take tag.length) = lcs tag then
        match (rest.drop tag.length).dropWhile isWs with
        | '>' :: _ =>
            some (2 + tag.length + ((rest.drop tag.length).takeWhile isWs).length + 1)
        | _ => none
      else none
  | _ => none

/-- `endTagPattern.exec(remaining)`: first index at which the close pattern
matches, together with the match length. -/
def findRawClose (tag : Str) : Str → Option (Nat × Nat)
  | [] => none
  | c :: cs =>
      match rawCloseLen tag (c :: cs) with
      | some L => some (0, L)
      | none => (findRawClose tag cs).map (fun p => (p.1 + 1, p.2))

/-- Second half of the `html[pos] === '<'` start-tag branch, once the regex has
matched: `tagName := lcs nm`, `attributes := normalizeAttributes attrsRaw`,
`selfClosing := slash || VOID_ELEMENTS contains tagName` (lines 111-129). -/
def ltTag (html : Str) (pos : Nat) (nm attrsRaw : Str) (slash : Bool) (L : Nat) :
    List Token × Nat :=
  if RAW_TEXT_ELEMENTS.contains (lcs nm) && !(slash || VOID_ELEMENTS.contains (lcs nm)) then
    match findRawClose (lcs nm) (html.drop (pos + L)) with
    | some (idx, mLen) =>
        ([Token.rawText (lcs nm) (normalizeAttributes attrsRaw)
            ((html.drop (pos + L)).take idx)],
          pos + L + idx + mLen)
    | none =>
        ([Token.startTag (lcs nm) (normalizeAttributes attrsRaw)
            (slash || VOID_ELEMENTS.contains (lcs nm))], pos + L)
  else
    ([Token.startTag (lcs nm) (normalizeAttributes attrsRaw)
        (slash || VOID_ELEMENTS.contains (lcs nm))], pos + L)

/-- The `html[pos] === '<'` branch of `tokenize` (lines 108-136), which the
failed `</` branch also falls through to.  An unrecognisable `<` degrades to a
one-character text token. -/
def ltBranch (html : Str) (pos : Nat) : List Token × Nat :=
  match startTagMatch (html.drop pos) with
  | none => ([Token.text ['<']], pos + 1)
  | some (nm, attrsRaw, slash, L) => ltTag html pos nm attrsRaw slash L

/-- The ordinary-text branch at the end of the loop: consume up to the next
`<` (or end of input) and push a text token if non-empty. -/
def textChunk (html : Str) (pos nextTag : Nat) : List Token × Nat :=
  (if (html.drop pos).take (nextTag - pos) = [] then []
   else [Token.text ((html.drop pos).take (nextTag - pos))], nextTag)

/-- One iteration of the `tokenize` scanning loop (htmlFormatter.ts lines
76-148): the tokens pushed and the new cursor position. -/
def tokStep (html : Str) (pos : Nat) : List Token × Nat :=
  if "<!--".data.isPrefixOf (html.drop pos) then
    match findFrom html "-->".data (pos + 4) with
    | none => ([Token.comment (html.drop pos)], html.length)
    | some e => ([Token.comment ((html.drop pos).take (e + 3 - pos))], e + 3)
  else if "<!".data.isPrefixOf (html.drop pos) then
    match findFrom html ">".data pos with
    | none => ([Token.doctype (html.drop pos)], html.length)
    | some e => ([Token.doctype ((html.drop pos).take (e + 1 - pos))], e + 1)
  else if "</".data.isPrefixOf (html.drop pos) then
    match endTagMatch (html.drop pos) with
    | some (nm, L) => ([Token.endTag (lcs nm)], pos + L)
    | none => ltBranch html pos
  else if (html.drop pos).head? = some '<' then
    ltBranch html pos
  else
    textChunk html pos ((findFrom html "<".data pos).getD html.length)

theorem endTagMatch_bound (s : Str) (nm : Str) (L : Nat)
    (h : endTagMatch s = some (nm, L)) : 0 < L ∧ L ≤ s.length := by
  unfold endTagMatch at h
  split at h
  case h_2 => exact absurd h (by simp)
  case h_1 c rest =>
    split at h
    case isFalse => exact absurd h (by simp)
    case isTrue =>
      split at h
      case h_2 => exact absurd h (by simp)
      case h_1 x t2 heq =>
        simp only [Option.some.injEq, Prod.mk.injEq] at h
        obtain ⟨-, hL⟩ := h
        have h1 := congrArg List.length
          (List.takeWhile_append_dropWhile (p := isTagNameCh) (l := rest))
        have h2 := congrArg List.length
          (List.takeWhile_append_dropWhile (p := isWs) (l := rest.dropWhile isTagNameCh))
        rw [heq] at h2
        simp only [List.length_append, List.length_cons] at h1 h2 hL ⊢
        omega

theorem startTagMatch_bound (s : Str) (nm attrs : Str) (sc : Bool) (L : Nat)
    (h : startTagMatch s = some (nm, attrs, sc, L)) : 0 < L ∧ L ≤ s.length := by
  unfold startTagMatch at h
  split at h
  case h_2 => exact absurd h (by simp)
  case h_1 c rest =>
    split at h
    case isFalse => exact absurd h (by simp)
    case isTrue =>
      split at h
      case h_1 => exact absurd h (by simp)
      case h_2 k hfind =>
        have hk := findFrom_in_bounds _ _ _ _ (by decide) hfind
        have h1 := congrArg List.length
          (List.takeWhile_append_dropWhile (p := isTagNameCh) (l := rest))
        have hgt : (">".data).length = 1 := rfl
        simp only [List.length_append] at h1
        split at h
        all_goals
          simp only [Option.some.injEq, Prod.mk.injEq] at h
          obtain ⟨-, -, -, hL⟩ := h
          simp only [List.length_cons] at h1 hL ⊢
          omega

theorem rawCloseLen_bound (tag s : Str) (L : Nat)
    (h : rawCloseLen tag s = some L) : 0 < L ∧ L ≤ s.length := by
  unfold rawCloseLen at h
  split at h
  case h_2 => exact absurd h (by simp)
  case h_1 rest =>
    split at h
    case isFalse => exact absurd h (by simp)
    case isTrue htake =>
      split at h
      case h_2 => exact absurd h (by simp)
      case h_1 x t2 heq =>
        simp only [Option.some.injEq] at h
        have htaglen : tag.length ≤ rest.length := by
          have := congrArg List.length htake
          simp only [lcs, List.length_map, List.length_take] at this
          omega
        have h2 := congrArg List.length
          (List.takeWhile_append_dropWhile (p := isWs) (l := rest.drop tag.length))
        rw [heq] at h2
        simp only [List.length_append, List.length_cons, List.length_drop] at h2
        simp only [List.length_cons]
        omega

theorem findRawClose_bound (tag : Str) :
    ∀ (s : Str) (idx L : Nat), findRawClose tag s = some (idx, L) →
      0 < L ∧ idx + L ≤ s.length := by
  intro s
  induction s with
  | nil => intro idx L h; cases h
  | cons c cs ih =>
      intro idx L h
      unfold findRawClose at h
      split at h
      case h_1 L2 heq =>
        simp only [Option.some.injEq, Prod.mk.injEq] at h
        obtain ⟨h1, h2⟩ := h
        subst h1; subst h2
        exact (rawCloseLen_bound _ _ _ heq).imp id (fun hb => by simpa using hb)
      case h_2 heq =>
        simp only [Option.map_eq_some'] at h
        obtain ⟨⟨idx0, L0⟩, hp, hpe⟩ := h
        simp only [Prod.mk.injEq] at hpe
        obtain ⟨h1, h2⟩ := hpe
        subst h1; subst h2
        have := ih _ _ hp
        simp only [List.length_cons]
        omega

theorem ltTag_snd (html : Str) (pos : Nat) (nm attrsRaw : Str) (slash : Bool) (L : Nat)
    (hL : 0 < L) (hle : pos + L ≤ html.length) :
    pos < (ltTag html pos nm attrsRaw slash L).2 ∧
      (ltTag html pos nm attrsRaw slash L).2 ≤ html.length := by
  unfold ltTag
  split
  · cases hrc : findRawClose (lcs nm) (html.drop (pos + L)) with
    | none => exact ⟨Nat.lt_add_of_pos_right hL, hle⟩
    | some p =>
        obtain ⟨idx, mLen⟩ := p
        have hc := findRawClose_bound _ _ _ _ hrc
        rw [List.length_drop] at hc
        refine ⟨?_, ?_⟩
        · show pos < pos + L + idx + mLen
          omega
        · show pos + L + idx + mLen ≤ html.length
          omega
  · exact ⟨Nat.lt_add_of_pos_right hL, hle⟩

theorem ltBranch_progress (html : Str) (pos : Nat) (h : pos < html.length) :
    pos < (ltBranch html pos).2 ∧ (ltBranch html pos).2 ≤ html.length := by
  unfold ltBranch
  cases hst : startTagMatch (html.drop pos) with
  | none => exact ⟨Nat.lt_succ_self _, h⟩
  | some v =>
      obtain ⟨nm, attrs, slash, L⟩ := v
      have hb := startTagMatch_bound _ _ _ _ _ hst
      rw [List.length_drop] at hb
      exact ltTag_snd html pos nm attrs slash L hb.1 (by omega)

theorem tokStep_progress (html : Str) (pos : Nat) (h : pos < html.length) :
    pos < (tokStep html pos).2 ∧ (tokStep html pos).2 ≤ html.length := by
  unfold tokStep
  split
  · -- comment branch
    cases hf : findFrom html "-->".data (pos + 4) with
    | none => exact ⟨h, Nat.le_refl _⟩
    | some e =>
        have hb := findFrom_in_bounds _ _ _ _ (by decide) hf
        have h3 : ("-->".data).length = 3 := rfl
        refine ⟨?_, ?_⟩
        · show pos < e + 3
          omega
        · show e + 3 ≤ html.length
          omega
  · split
    · -- doctype branch
      cases hf : findFrom html ">".data pos with
      | none => exact ⟨h, Nat.le_refl _⟩
      | some e =>
          have hb := findFrom_in_bounds _ _ _ _ (by decide) hf
          have h1 : (">".data).length = 1 := rfl
          refine ⟨?_, ?_⟩
          · show pos < e + 1
            omega
          · show e + 1 ≤ html.length
            omega
    · split
      · -- end-tag branch
        cases he : endTagMatch (html.drop pos) with
        | none => exact ltBranch_progress html pos h
        | some v =>
            obtain ⟨nm, L⟩ := v
            have hb := endTagMatch_bound _ _ _ he
            rw [List.length_drop] at hb
            refine ⟨?_, ?_⟩
            · show pos < pos + L
              omega
            · show pos + L ≤ html.length
              omega
      · split
        · exact ltBranch_progress html pos h
        · -- text branch
          rename_i hhead
          unfold textChunk
          cases hf : findFrom html "<".data pos with
          | none =>
              simp only [Option.getD_none]
              exact ⟨h, Nat.le_refl _⟩
          | some e =>
              simp only [Option.getD_some]
              have hb := findFrom_in_bounds _ _ _ _ (by decide) hf
              have hpre := (findFrom_ge _ _ _ _ hf).2
              have h1 : ("<".data).length = 1 := rfl
              have hne : pos ≠ e := by
                intro hc; subst hc
                obtain ⟨t, ht⟩ := List.isPrefixOf_iff_prefix.mp hpre
                exact hhead (by rw [← ht]; rfl)
              refine ⟨?_, ?_⟩
              · show pos < e
                omega
              · show e ≤ html.length
                omega

/-- htmlFormatter.ts lines 72-151: the full scanning loop.  The fuel is an
upper bound on the remaining iterations; `tokStep_progress` shows the cursor
strictly advances, so `html.length` fuel always suffices (see
`tokenizeLoop_fuel_irrel`). -/
def tokenizeLoop (fuel : Nat) (html : Str) (pos : Nat) : List Token :=
  match fuel with
  | 0 => []
  | fuel + 1 =>
      if pos < html.length then
        (tokStep html pos).1 ++ tokenizeLoop fuel html (tokStep html pos).2
      else []

theorem tokenizeLoop_fuel_irrel (html : Str) :
    ∀ (f1 f2 pos : Nat), html.length - pos ≤ f1 → html.length - pos ≤ f2 →
      tokenizeLoop f1 html pos = tokenizeLoop f2 html pos := by
  intro f1
  induction f1 with
  | zero =>
      intro f2 pos h1 h2
      cases f2 with
      | zero => rfl
      | succ f2 =>
          unfold tokenizeLoop
          rw [if_neg (by omega)]
  | succ f1 ih =>
      intro f2 pos h1 h2
      cases f2 with
      | zero =>
          unfold tokenizeLoop
          rw [if_neg (by omega)]
      | succ f2 =>
          unfold tokenizeLoop
          by_cases hp : pos < html.length
          · rw [if_pos hp, if_pos hp]
            have hprog := tokStep_progress html pos hp
            rw [ih f2 (tokStep html pos).2 (by omega) (by omega)]
          · rw [if_neg hp, if_neg hp]

def tokenize (html : Str) : List Token := tokenizeLoop html.length html 0

/-! ## HTML renderer (htmlFormatter.ts lines 153-278) -/

def replaceAllCh (s : Str) (c : Char) (r : Str) : Str :=
  s.flatMap (fun x => if x = c then r else [x])

/-- `escapeNewlines`: `.replace(/\n/g, '&#10;').replace(/\r/g, '&#13;')`. -/
def escapeNewlines (s : Str) : Str :=
  replaceAllCh (replaceAllCh s '\n' "&#10;".data) '\r' "&#13;".data

def isPreserveWhitespaceElement (tag : Str) : Bool :=
  PRESERVE_WHITESPACE_ELEMENTS.contains tag

/-- `INDENT.repeat(depth)`. -/
def repIndent (depth : Nat) : Str := (List.replicate depth INDENT).flatten

/-- The reconstructed start tag
`<name attrs />` / `<name attrs>` / `<name />` / `<name>`. -/
def startTagText (tagName attributes : Str) (selfClosing : Bool) : Str :=
  if attributes ≠ [] then
    '<' :: tagName ++ ' ' :: attributes ++ (if selfClosing then " />".data else ">".data)
  else
    '<' :: tagName ++ (if selfClosing then " />".data else ">".data)

def closeTagText (tagName : Str) : Str := '<' :: '/' :: tagName ++ ">".data

/-- Minimum leading-whitespace width over the non-blank lines
(`Math.min` fold starting from `Infinity`, 0 when there is no non-blank line). -/
def minIndentOf (ls : List Str) : Nat :=
  match (ls.filter (fun l => trimStr l ≠ [])).map (fun l => (l.takeWhile isWs).length) with
  | [] => 0
  | x :: xs => xs.foldl Nat.min x

/-- The rawText branch of `render` (lines 179-221): inline short content,
otherwise emit a re-indented block keeping relative indentation and dropping
blank lines. -/
def rawTextLines (depth : Nat) (tagName attributes content : Str) : List Str :=
  (fun contentLines =>
    if contentLines = [] then
      [repIndent depth ++ startTagText tagName attributes false ++ closeTagText tagName]
    else if contentLines.length = 1 ∧ (trimStr (contentLines.headD [])).length < 60 then
      [repIndent depth ++ startTagText tagName attributes false ++
        trimStr (contentLines.headD []) ++ closeTagText tagName]
    else
      (repIndent depth ++ startTagText tagName attributes false) ::
        ((contentLines.filter (fun l => trimStr l ≠ [])).map
          (fun l => repIndent (depth + 1) ++ l.drop (minIndentOf contentLines)))
        ++ [repIndent depth ++ closeTagText tagName])
  ((((content.splitOn '\n').dropWhile (fun l => trimStr l = [])).reverse.dropWhile
      (fun l => trimStr l = [])).reverse)

/-- htmlFormatter.ts lines 161-277: the render loop over the token list.
`depth` is the indentation depth, `tagStack` the stack of open tag names
(head = top).  The single-line collapse consumes the two look-ahead tokens,
mirroring `i += 2`.  Fuel bounds the iteration count; each iteration consumes
at least one token, so `tokens.length` fuel suffices
(see `renderLoop_fuel_irrel`). -/
def renderLoop : Nat → List Token → Nat → List Str → List Str
  | 0, _, _, _ => []
  | _ + 1, [], _, _ => []
  | fuel + 1, Token.doctype content :: rest, depth, tagStack =>
      content :: renderLoop fuel rest depth tagStack
  | fuel + 1, Token.comment content :: rest, depth, tagStack =>
      (repIndent depth ++ content) :: renderLoop fuel rest depth tagStack
  | fuel + 1, Token.rawText tagName attributes content :: rest, depth, tagStack =>
      rawTextLines depth tagName attributes content ++ renderLoop fuel rest depth tagStack
  | fuel + 1, Token.startTag tagName attributes selfClosing :: rest, depth, tagStack =>
      if selfClosing then
        (repIndent depth ++ startTagText tagName attributes selfClosing) ::
          renderLoop fuel rest depth tagStack
      else
        match rest with
        | Token.text c :: Token.endTag n2 :: rest2 =>
            if n2 = tagName ∧ trimStr c ≠ [] ∧ '\n' ∉ trimStr c then
              (repIndent depth ++ startTagText tagName attributes selfClosing ++
                (if PRESERVE_WHITESPACE_ELEMENTS.contains tagName then trimStr c
                 else escapeNewlines (trimStr c)) ++
                closeTagText tagName) :: renderLoop fuel rest2 depth tagStack
            else
              (repIndent depth ++ startTagText tagName attributes selfClosing) ::
                renderLoop fuel rest (depth + 1) (tagName :: tagStack)
        | _ =>
            (repIndent depth ++ startTagText tagName attributes selfClosing) ::
              renderLoop fuel rest (depth + 1) (tagName :: tagStack)
  | fuel + 1, Token.endTag tagName :: rest, depth, tagStack =>
      (repIndent (depth - 1) ++ closeTagText tagName) ::
        renderLoop fuel rest (depth - 1) tagStack.tail
  | fuel + 1, Token.text content :: rest, depth, tagStack =>
      if trimStr content = [] then renderLoop fuel rest depth tagStack
      else
        (repIndent depth ++
          (if tagStack.any isPreserveWhitespaceElement then trimStr content
           else escapeNewlines (trimStr content))) :: renderLoop fuel rest depth tagStack

theorem renderLoop_nil (f depth : Nat) (tagStack : List Str) :
    renderLoop f [] depth tagStack = [] := by
  cases f <;> rfl

theorem renderLoop_fuel_aux :
    ∀ (n : Nat) (toks : List Token) (f1 f2 depth : Nat) (tagStack : List Str),
      toks.length ≤ n → toks.length ≤ f1 → toks.length ≤ f2 →
      renderLoop f1 toks depth tagStack = renderLoop f2 toks depth tagStack := by
  intro n
  induction n with
  | zero =>
      intro toks f1 f2 depth tagStack hn h1 h2
      have htoks : toks = [] := List.length_eq_zero.mp (Nat.le_zero.mp hn)
      subst htoks
      rw [renderLoop_nil, renderLoop_nil]
  | succ n ih =>
      intro toks f1 f2 depth tagStack hn h1 h2
      cases toks with
      | nil => rw [renderLoop_nil, renderLoop_nil]
      | cons t rest =>
          cases f1 with
          | zero => simp at h1
          | succ f1 =>
            cases f2 with
            | zero => simp at h2
            | succ f2 =>
              have hn1 : rest.length ≤ n := by
                simp only [List.length_cons] at hn; omega
              have h1a : rest.length ≤ f1 := by
                simp only [List.length_cons] at h1; omega
              have h2a : rest.length ≤ f2 := by
                simp only [List.length_cons] at h2; omega
              cases t with
              | doctype content =>
                  simp only [renderLoop]
                  rw [ih rest f1 f2 depth tagStack hn1 h1a h2a]
              | comment content =>
                  simp only [renderLoop]
                  rw [ih rest f1 f2 depth tagStack hn1 h1a h2a]
              | rawText tagName attributes content =>
                  simp only [renderLoop]
                  rw [ih rest f1 f2 depth tagStack hn1 h1a h2a]
              | endTag tagName =>
                  simp only [renderLoop]
                  rw [ih rest f1 f2 (depth - 1) tagStack.tail hn1 h1a h2a]
              | text content =>
                  simp only [renderLoop]
                  by_cases hc : trimStr content = []
                  · rw [if_pos hc, if_pos hc, ih rest f1 f2 depth tagStack hn1 h1a h2a]
                  · rw [if_neg hc, if_neg hc, ih rest f1 f2 depth tagStack hn1 h1a h2a]
              | startTag tagName attributes selfClosing =>
                  by_cases hsc : selfClosing = true
                  · simp only [renderLoop]
                    rw [if_pos hsc, if_pos hsc,
                      ih rest f1 f2 depth tagStack hn1 h1a h2a]
                  · cases rest with
                    | nil =>
                        simp only [renderLoop]
                        rw [if_neg hsc, if_neg hsc, renderLoop_nil, renderLoop_nil]
                    | cons t1 rest1 =>
                        cases t1 with
                        | text c =>
                            cases rest1 with
                            | nil =>
                                simp only [renderLoop]
                                rw [if_neg hsc, if_neg hsc,
                                  ih _ f1 f2 (depth + 1) (tagName :: tagStack) hn1 h1a h2a]
                            | cons t2 rest2 =>
                                cases t2 with
                                | endTag n2 =>
                                    have hn2 : rest2.length ≤ n := by
                                      simp only [List.length_cons] at hn1; omega
                                    have h1b : rest2.length ≤ f1 := by
                                      simp only [List.length_cons] at h1a; omega
                                    have h2b : rest2.length ≤ f2 := by
                                      simp only [List.length_cons] at h2a; omega
                                    simp only [renderLoop]
                                    rw [if_neg hsc, if_neg hsc]
                                    by_cases hcond :
                                        n2 = tagName ∧ trimStr c ≠ [] ∧ '\n' ∉ trimStr c
                                    · rw [if_pos hcond, if_pos hcond,
                                        ih rest2 f1 f2 depth tagStack hn2 h1b h2b]
                                    · rw [if_neg hcond, if_neg hcond,
                                        ih _ f1 f2 (depth + 1) (tagName :: tagStack) hn1 h1a h2a]
                                | _ =>
                                    simp only [renderLoop]
                                    rw [if_neg hsc, if_neg hsc,
                                      ih _ f1 f2 (depth + 1) (tagName :: tagStack) hn1 h1a h2a]
                        | _ =>
                            simp only [renderLoop]
                            rw [if_neg hsc, if_neg hsc,
                              ih _ f1 f2 (depth + 1) (tagName :: tagStack) hn1 h1a h2a]

theorem renderLoop_fuel_irrel (toks : List Token) (f1 f2 depth : Nat)
    (tagStack : List Str) (h1 : toks.length ≤ f1) (h2 : toks.length ≤ f2) :
    renderLoop f1 toks depth tagStack = renderLoop f2 toks depth tagStack :=
  renderLoop_fuel_aux toks.length toks f1 f2 depth tagStack (Nat.le_refl _) h1 h2

/-- `lines.join('\n')`. -/
def render (tokens : List Token) : Str :=
  List.intercalate ['\n'] (renderLoop tokens.length tokens 0 [])

/-- htmlFormatter.ts lines 63-66. -/
def formatHtml (html : Str) : Str := render (tokenize html)

/-! ## Void elements: start tags are always self-closing -/

theorem mem_ltTag_startTag (html : Str) (pos : Nat) (nm attrsRaw : Str) (slash : Bool)
    (L : Nat) (n a : Str) (sc : Bool)
    (h : Token.startTag n a sc ∈ (ltTag html pos nm attrsRaw slash L).1) :
    n = lcs nm ∧ sc = (slash || VOID_ELEMENTS.contains (lcs nm)) := by
  unfold ltTag at h
  split at h
  · split at h
    · simp at h
    · simp only [List.mem_singleton, Token.startTag.injEq] at h
      exact ⟨h.1, h.2.2⟩
  · simp only [List.mem_singleton, Token.startTag.injEq] at h
    exact ⟨h.1, h.2.2⟩

theorem mem_tokStep_startTag (html : Str) (pos : Nat) (n a : Str) (sc : Bool)
    (h : Token.startTag n a sc ∈ (tokStep html pos).1) (hv : n ∈ VOID_ELEMENTS) :
    sc = true := by
  have hlt : ∀ p, Token.startTag n a sc ∈ (ltBranch html p).1 → sc = true := by
    intro p hm
    unfold ltBranch at hm
    split at hm
    · simp at hm
    · obtain ⟨hn, hsc⟩ := mem_ltTag_startTag _ _ _ _ _ _ _ _ _ hm
      rw [← hn] at hsc
      have hc : VOID_ELEMENTS.contains n = true := by
        simpa [List.contains] using List.elem_iff.mpr hv
      rw [hsc, hc, Bool.or_true]
  unfold tokStep at h
  split at h
  · split at h <;> simp at h
  · split at h
    · split at h <;> simp at h
    · split at h
      · split at h
        · simp at h
        · exact hlt pos h
      · split at h
        · exact hlt pos h
        · unfold textChunk at h
          split at h <;> simp at h

theorem mem_tokenizeLoop_startTag (html : Str) (n a : Str) (sc : Bool)
    (hv : n ∈ VOID_ELEMENTS) :
    ∀ (fuel pos : Nat), Token.startTag n a sc ∈ tokenizeLoop fuel html pos →
      sc = true := by
  intro fuel
  induction fuel with
  | zero => intro pos h; cases h
  | succ fuel ih =>
      intro pos h
      unfold tokenizeLoop at h
      split at h
      · rcases List.mem_append.mp h with hm | hm
        · exact mem_tokStep_startTag html pos n a sc hm hv
        · exact ih _ hm
      · cases h

/-- C3 counterexample: `tokenize` does emit a bare end-tag token for the void
element name `br` when the input itself contains the literal close tag
`</br>`; the end-tag branch never consults the void-element set. -/
theorem tokenize_void_endTag_cex :
    "br".data ∈ VOID_ELEMENTS ∧
      tokenize "</br>".data = [Token.endTag "br".data] := by decide

/-- C3 (amended): for any input, every `startTag` token `tokenize` emits whose
name is in the void-element set is marked self-closing, and `render` emits a
self-closing start tag as a single line, leaving the depth and the open-tag
stack unchanged for the rest of the run.  (`tokenize` can, however, emit an
`endTag` token with a void name when the input contains a literal close tag
such as `</br>` — see the counterexample.) -/
theorem void_startTag_selfClosing (html : Str) (n a : Str) (sc : Bool)
    (hv : n ∈ VOID_ELEMENTS) (hmem : Token.startTag n a sc ∈ tokenize html) :
    sc = true ∧
      ∀ (f d : Nat) (st : List Str) (ts : List Token),
        renderLoop (f + 1) (Token.startTag n a true :: ts) d st =
          (repIndent d ++ startTagText n a true) :: renderLoop f ts d st := by
  refine ⟨mem_tokenizeLoop_startTag html n a sc hv _ _ hmem, ?_⟩
  intro f d st ts
  cases ts with
  | nil => simp [renderLoop]
  | cons t rest => cases t <;> simp [renderLoop]

theorem void_startTag_selfClosing_witness :
    true = true ∧
      ∀ (f d : Nat) (st : List Str) (ts : List Token),
        renderLoop (f + 1) (Token.startTag "br".data [] true :: ts) d st =
          (repIndent d ++ startTagText "br".data [] true) :: renderLoop f ts d st :=
  void_startTag_selfClosing "<br>".data "br".data [] true (by decide) (by decide)

/-! ## Totality of the tokenizer -/

theorem tokenizeLoop_fuel_zero_of_done (html : Str) :
    ∀ (fuel q : Nat), html.length ≤ q → tokenizeLoop fuel html q = [] := by
  intro fuel q hq
  cases fuel with
  | zero => rfl
  | succ fuel =>
      unfold tokenizeLoop
      rw [if_neg (by omega)]

/-- C4: the scanning loop of `tokenize` is total.  While the cursor is inside
the input, every branch advances it by at least one position and never past
the input length; the loop performs exactly one `tokStep` per iteration, stops
exactly when the cursor reaches the input length (returning a possibly empty
token list), and its result does not depend on the fuel bound used to realise
the recursion. -/
theorem tokenize_terminates (html : Str) (pos : Nat) (h : pos < html.length) :
    (pos < (tokStep html pos).2 ∧ (tokStep html pos).2 ≤ html.length) ∧
    (∀ fuel, tokenizeLoop (fuel + 1) html pos =
        (tokStep html pos).1 ++ tokenizeLoop fuel html (tokStep html pos).2) ∧
    (∀ fuel q, html.length ≤ q → tokenizeLoop fuel html q = []) ∧
    (∀ f1 f2, html.length - pos ≤ f1 → html.length - pos ≤ f2 →
        tokenizeLoop f1 html pos = tokenizeLoop f2 html pos) := by
  refine ⟨tokStep_progress html pos h, ?_, tokenizeLoop_fuel_zero_of_done html, ?_⟩
  · intro fuel
    have heq : tokenizeLoop (fuel + 1) html pos =
        if pos < html.length then
          (tokStep html pos).1 ++ tokenizeLoop fuel html (tokStep html pos).2
        else [] := rfl
    rw [heq, if_pos h]
  · intro f1 f2 h1 h2
    exact tokenizeLoop_fuel_irrel html f1 f2 pos h1 h2

theorem tokenize_terminates_witness :
    ((0 < (tokStep "<a>".data 0).2 ∧ (tokStep "<a>".data 0).2 ≤ "<a>".data.length) ∧
    (∀ fuel, tokenizeLoop (fuel + 1) "<a>".data 0 =
        (tokStep "<a>".data 0).1 ++ tokenizeLoop fuel "<a>".data (tokStep "<a>".data 0).2) ∧
    (∀ fuel q, "<a>".data.length ≤ q → tokenizeLoop fuel "<a>".data q = []) ∧
    (∀ f1 f2, "<a>".data.length - 0 ≤ f1 → "<a>".data.length - 0 ≤ f2 →
        tokenizeLoop f1 "<a>".data 0 = tokenizeLoop f2 "<a>".data 0)) :=
  tokenize_terminates "<a>".data 0 (by decide)

/-! ## The formatter is not idempotent after one pass -/

/-- C5 counterexample: for the well-formed fragment `<div>a\nb</div>` the
first pass escapes the embedded newline to `&#10;` inside a block layout,
and only the second pass can then collapse the element onto one line, so
`render ∘ tokenize` applied twice differs from applying it once. -/
theorem formatHtml_not_one_pass_idempotent :
    formatHtml "<div>a\nb</div>".data = "<div>\n  a&#10;b\n</div>".data ∧
    formatHtml "<div>\n  a&#10;b\n</div>".data = "<div>a&#10;b</div>".data ∧
    formatHtml (formatHtml "<div>a\nb</div>".data) ≠
      formatHtml "<div>a\nb</div>".data := by decide

/-- C5 (amended): one pass of `render ∘ tokenize` need not be a fixed point;
on the counterexample input `<div>a\nb</div>` the second pass output is a
fixed point, i.e. the formatter stabilises after two passes there. -/
theorem formatHtml_two_pass_fixed_point :
    formatHtml (formatHtml (formatHtml "<div>a\nb</div>".data)) =
      formatHtml (formatHtml "<div>a\nb</div>".data) := by decide

/-! ## Python block parser (references.ts lines 165-331) -/

inductive PyKind where
  | pyClass
  | pyDef
deriving DecidableEq, Repr, Inhabited

/-- references.ts lines 165-172 (`type` is called `kind` here). -/
structure PythonBlock where
  kind : PyKind
  name : Str
  label : Str
  indent : Nat
  startLine : Nat
  endLine : Nat
deriving DecidableEq, Repr, Inhabited

/-- `fullText.split(/\r?\n/)`: split on newlines, where each newline may
consume one immediately preceding carriage return. -/
def stripCr (l : Str) : Str := if l.getLast? = some '\r' then l.dropLast else l

def splitLines (s : Str) : List Str := (s.splitOn '\n').map stripCr

/-- references.ts lines 307-322: spaces count 1, tabs count 4, stop at the
first other character. -/
def getPythonIndent : Str → Nat
  | [] => 0
  | c :: cs =>
      if c = ' ' then 1 + getPythonIndent cs
      else if c = '\t' then 4 + getPythonIndent cs
      else 0

def isPyIdentStart (c : Char) : Bool := isAsciiLetter c || c = '_'

/-- The regex `^class\s+([A-Za-z_]\w*)\b` on a trimmed line (the trailing
`\b` always holds after the greedy `\w*`). -/
def pyClassMatch (t : Str) : Option Str :=
  if "class".data.isPrefixOf t then
    match t.drop 5 with
    | c :: cs =>
        if isWs c then
          match (c :: cs).dropWhile isWs with
          | d :: ds => if isPyIdentStart d then some (d :: ds.takeWhile isWordCh) else none
          | [] => none
        else none
    | [] => none
  else none

/-- The regex `^def\s+([A-Za-z_]\w*)\s*\(` on a trimmed line. -/
def pyDefMatch (t : Str) : Option Str :=
  if "def".data.isPrefixOf t then
    match t.drop 3 with
    | c :: cs =>
        if isWs c then
          match (c :: cs).dropWhile isWs with
          | d :: ds =>
              if isPyIdentStart d then
                match (ds.dropWhile isWordCh).dropWhile isWs with
                | '(' :: _ => some (d :: ds.takeWhile isWordCh)
                | _ => none
              else none
          | [] => none
        else none
    | [] => none
  else none

/-- references.ts lines 324-331: nearest class on the stack, top first.  The
stack holds indices into the blocks array (mirroring the shared mutable
objects of the source). -/
def findNearestPythonClass (blocks : List PythonBlock) : List Nat → Option Str
  | [] => none
  | i :: rest =>
      match blocks.get? i with
      | some b =>
          if b.kind = PyKind.pyClass then some b.name
          else findNearestPythonClass blocks rest
      | none => findNearestPythonClass blocks rest

/-- The `while` loop of lines 256-261: pop every open block whose indent is
`≥` the new line's indent (`indent ≤ top.indent`), fixing its `endLine` to
`lineIndex - 1`. -/
def popWhile (indent lineIndex : Nat) :
    List PythonBlock → List Nat → List PythonBlock × List Nat
  | blocks, [] => (blocks, [])
  | blocks, top :: restStack =>
      match blocks.get? top with
      | some b =>
          if indent ≤ b.indent then
            popWhile indent lineIndex (blocks.set top { b with endLine := lineIndex - 1 })
              restStack
          else (blocks, top :: restStack)
      | none => popWhile indent lineIndex blocks restStack

/-- One iteration of the line loop of `parsePythonBlocks` (lines 248-295). -/
def pyProcessLine (totalLines : Nat) (blocks : List PythonBlock) (stack : List Nat)
    (lineIndex : Nat) (line : Str) : List PythonBlock × List Nat :=
  if trimStr line = [] ∨ (trimStr line).head? = some '#' then (blocks, stack)
  else
    match popWhile (getPythonIndent line) lineIndex blocks stack with
    | (blocks2, stack2) =>
        match pyClassMatch (trimStr line) with
        | some className =>
            (blocks2 ++ [⟨PyKind.pyClass, className, className, getPythonIndent line,
               lineIndex, totalLines - 1⟩], blocks2.length :: stack2)
        | none =>
            match pyDefMatch (trimStr line) with
            | some defName =>
                (blocks2 ++ [⟨PyKind.pyDef, defName,
                   (match findNearestPythonClass blocks2 stack2 with
                    | some cn => cn ++ '.' :: defName
                    | none => defName),
                   getPythonIndent line, lineIndex, totalLines - 1⟩],
                 blocks2.length :: stack2)
            | none => (blocks2, stack2)

def pyLoop (totalLines : Nat) :
    List Str → Nat → List PythonBlock → List Nat → List PythonBlock × List Nat
  | [], _, blocks, stack => (blocks, stack)
  | l :: ls, n, blocks, stack =>
      match pyProcessLine totalLines blocks stack n l with
      | (b2, s2) => pyLoop totalLines ls (n + 1) b2 s2

/-- Lines 297-302: close every still-open block at the last line. -/
def finalPop (totalLines : Nat) : List PythonBlock → List Nat → List PythonBlock
  | blocks, [] => blocks
  | blocks, top :: rest =>
      match blocks.get? top with
      | some b => finalPop totalLines (blocks.set top { b with endLine := totalLines - 1 }) rest
      | none => finalPop totalLines blocks rest

/-- references.ts lines 243-305. -/
def parsePythonBlocks (fullText : Str) : List PythonBlock :=
  match pyLoop (splitLines fullText).length (splitLines fullText) 0 [] [] with
  | (blocks, stack) => finalPop (splitLines fullText).length blocks stack

/-- C9: on the five-line program the parser returns exactly the class `A`
covering lines 0-2, the method `m` qualified as `A.m` covering lines 1-2,
and the top-level `top` (unqualified) covering lines 3-4 — `A` closing
before the top-level def. -/
theorem parsePythonBlocks_example :
    parsePythonBlocks
        "class A:\n    def m(self):\n        pass\ndef top():\n    pass".data =
      [⟨PyKind.pyClass, "A".data, "A".data, 0, 0, 2⟩,
       ⟨PyKind.pyDef, "m".data, "A.m".data, 4, 1, 2⟩,
       ⟨PyKind.pyDef, "top".data, "top".data, 0, 3, 4⟩] := by decide

/-! ## The parsed blocks form a laminar family (C7) -/

def blockAt (blocks : List PythonBlock) (i : Nat) : PythonBlock :=
  (blocks.get? i).getD default

/-- Two inclusive line ranges are disjoint or nested. -/
def laminarPair (a b : PythonBlock) : Prop :=
  b.endLine < a.startLine ∨ a.endLine < b.startLine ∨
  (a.startLine ≤ b.startLine ∧ b.endLine ≤ a.endLine) ∨
  (b.startLine ≤ a.startLine ∧ a.endLine ≤ b.endLine)

/-- Invariant of the `parsePythonBlocks` scan before processing line `n` of
`L` total lines: stack entries index open blocks (largest index on top, i.e.
first); open blocks carry the provisional `endLine = L - 1` and started
before `n`; closed blocks are well-formed and ended before `n`; start lines
strictly increase along the array; a closed block ends before any open block
with a larger index starts; and closed blocks are pairwise
disjoint-or-right-nested. -/
structure PyInv (L n : Nat) (blocks : List PythonBlock) (stack : List Nat) : Prop where
  hnL : n ≤ L
  stack_lt : ∀ i ∈ stack, i < blocks.length
  stack_sorted : stack.Pairwise (· > ·)
  open_end : ∀ i ∈ stack, (blockAt blocks i).endLine = L - 1
  open_start : ∀ i ∈ stack, (blockAt blocks i).startLine < n
  closed_ok : ∀ i, i < blocks.length → i ∉ stack →
      (blockAt blocks i).startLine ≤ (blockAt blocks i).endLine ∧
        (blockAt blocks i).endLine < n
  starts_mono : ∀ i j, i < j → j < blocks.length →
      (blockAt blocks i).startLine < (blockAt blocks j).startLine
  closed_open : ∀ i j, i < j → j < blocks.length → i ∉ stack → j ∈ stack →
      (blockAt blocks i).endLine < (blockAt blocks j).startLine
  closed_closed : ∀ i j, i < j → j < blocks.length → i ∉ stack → j ∉ stack →
      (blockAt blocks i).endLine < (blockAt blocks j).startLine ∨
        (blockAt blocks j).endLine ≤ (blockAt blocks i).endLine

theorem blockAt_set_ne (blocks : List PythonBlock) (i j : Nat) (x : PythonBlock)
    (h : i ≠ j) : blockAt (blocks.set i x) j = blockAt blocks j := by
  simp only [blockAt, List.get?_eq_getElem?, List.getElem?_set_ne h]

theorem blockAt_set_self (blocks : List PythonBlock) (i : Nat) (x : PythonBlock)
    (h : i < blocks.length) : blockAt (blocks.set i x) i = x := by
  simp only [blockAt, List.get?_eq_getElem?, List.getElem?_set_eq_of_lt x h, Option.getD_some]

theorem blockAt_append_lt (blocks tail : List PythonBlock) (i : Nat)
    (h : i < blocks.length) : blockAt (blocks ++ tail) i = blockAt blocks i := by
  simp only [blockAt, List.get?_eq_getElem?, List.getElem?_append_left h]

theorem blockAt_append_self (blocks : List PythonBlock) (nb : PythonBlock) :
    blockAt (blocks ++ [nb]) blocks.length = nb := by
  simp only [blockAt, List.get?_eq_getElem?]
  rw [List.getElem?_append_right (Nat.le_refl _)]
  simp

theorem popWhile_inv (L indent n : Nat) :
    ∀ (stack : List Nat) (blocks : List PythonBlock), PyInv L n blocks stack →
      PyInv L n (popWhile indent n blocks stack).1 (popWhile indent n blocks stack).2 ∧
      (popWhile indent n blocks stack).1.length = blocks.length := by
  intro stack
  induction stack with
  | nil => intro blocks hInv; exact ⟨hInv, rfl⟩
  | cons top restStack ih =>
      intro blocks hInv
      have htoplt : top < blocks.length := hInv.stack_lt top (List.mem_cons_self _ _)
      obtain ⟨htopgt, hrest_sorted⟩ := List.pairwise_cons.mp hInv.stack_sorted
      have htopmem : top ∈ top :: restStack := List.mem_cons_self _ _
      have hbg : blocks.get? top = some (blockAt blocks top) := by
        simp [blockAt, List.get?_eq_getElem?, List.getElem?_eq_getElem htoplt]
      unfold popWhile
      simp only [hbg]
      by_cases hind : indent ≤ (blockAt blocks top).indent
      · rw [if_pos hind]
        set b := blockAt blocks top with hbdef
        set nb := { b with endLine := n - 1 } with hnbdef
        have hn1 : 1 ≤ n := by
          have := hInv.open_start top htopmem
          omega
        have hstart : ∀ k,
            (blockAt (blocks.set top nb) k).startLine = (blockAt blocks k).startLine := by
          intro k
          by_cases hk : top = k
          · subst hk
            rw [blockAt_set_self _ _ _ htoplt]
          · rw [blockAt_set_ne _ _ _ _ hk]
        have hne_top : ∀ i ∈ restStack, top ≠ i := by
          intro i hi
          exact Nat.ne_of_gt (htopgt i hi)
        have hInv2 : PyInv L n (blocks.set top nb) restStack := by
          constructor
          · exact hInv.hnL
          · intro i hi
            rw [List.length_set]
            exact hInv.stack_lt i (List.mem_cons_of_mem _ hi)
          · exact hrest_sorted
          · intro i hi
            rw [blockAt_set_ne _ _ _ _ (hne_top i hi)]
            exact hInv.open_end i (List.mem_cons_of_mem _ hi)
          · intro i hi
            rw [blockAt_set_ne _ _ _ _ (hne_top i hi)]
            exact hInv.open_start i (List.mem_cons_of_mem _ hi)
          · intro i hilt hinot
            rw [List.length_set] at hilt
            by_cases hi : top = i
            · subst hi
              rw [blockAt_set_self _ _ _ htoplt]
              have hso := hInv.open_start top htopmem
              rw [← hbdef] at hso
              constructor
              · show b.startLine ≤ n - 1
                omega
              · show n - 1 < n
                omega
            · rw [blockAt_set_ne _ _ _ _ hi]
              refine hInv.closed_ok i hilt ?_
              intro hmem
              rcases List.mem_cons.mp hmem with h1 | h1
              · exact hi h1.symm
              · exact hinot h1
          · intro i j hij hjlt
            rw [List.length_set] at hjlt
            rw [hstart, hstart]
            exact hInv.starts_mono i j hij hjlt
          · intro i j hij hjlt hinot hjmem
            rw [List.length_set] at hjlt
            have hjne : top ≠ j := hne_top j hjmem
            have hine : top ≠ i := by
              intro hc
              subst hc
              exact Nat.lt_asymm hij (htopgt j hjmem)
            rw [blockAt_set_ne _ _ _ _ hine, hstart]
            refine hInv.closed_open i j hij hjlt ?_ (List.mem_cons_of_mem _ hjmem)
            intro hmem
            rcases List.mem_cons.mp hmem with h1 | h1
            · exact hine h1.symm
            · exact hinot h1
          · intro i j hij hjlt hinot hjnot
            rw [List.length_set] at hjlt
            by_cases hi : top = i
            · -- the newly closed block is `i`; any other closed block `j > i`
              -- ended before line `n`, hence within the new end line `n - 1`
              subst hi
              have hjne : top ≠ j := Nat.ne_of_lt hij
              rw [blockAt_set_self _ _ _ htoplt, blockAt_set_ne _ _ _ _ hjne]
              have hj_closed : j ∉ top :: restStack := by
                intro hmem
                rcases List.mem_cons.mp hmem with h1 | h1
                · exact hjne h1.symm
                · exact hjnot h1
              have := hInv.closed_ok j hjlt hj_closed
              right
              show (blockAt blocks j).endLine ≤ n - 1
              omega
            · by_cases hj : top = j
              · -- `j` is the newly closed block; the closed block `i < j`
                -- ended before `j` started (it closed while `j` was open)
                subst hj
                rw [blockAt_set_ne _ _ _ _ hi, blockAt_set_self _ _ _ htoplt]
                have hi_closed : i ∉ top :: restStack := by
                  intro hmem
                  rcases List.mem_cons.mp hmem with h1 | h1
                  · exact hi h1.symm
                  · exact hinot h1
                left
                show (blockAt blocks i).endLine < b.startLine
                exact hInv.closed_open i top hij htoplt hi_closed htopmem
              · rw [blockAt_set_ne _ _ _ _ hi, blockAt_set_ne _ _ _ _ hj]
                refine hInv.closed_closed i j hij hjlt ?_ ?_
                · intro hmem
                  rcases List.mem_cons.mp hmem with h1 | h1
                  · exact hi h1.symm
                  · exact hinot h1
                · intro hmem
                  rcases List.mem_cons.mp hmem with h1 | h1
                  · exact hj h1.symm
                  · exact hjnot h1
        have := ih (blocks.set top nb) hInv2
        refine ⟨this.1, ?_⟩
        rw [this.2, List.length_set]
      · rw [if_neg hind]
        exact ⟨hInv, rfl⟩

theorem PyInv.succ {L n : Nat} {blocks : List PythonBlock} {stack : List Nat}
    (hInv : PyInv L n blocks stack) (h : n < L) : PyInv L (n + 1) blocks stack := by
  constructor
  · omega
  · exact hInv.stack_lt
  · exact hInv.stack_sorted
  · exact hInv.open_end
  · intro i hi
    have := hInv.open_start i hi
    omega
  · intro i hlt hnot
    have := hInv.closed_ok i hlt hnot
    omega
  · exact hInv.starts_mono
  · exact hInv.closed_open
  · exact hInv.closed_closed

theorem push_inv (L n : Nat) (blocks : List PythonBlock) (stack : List Nat)
    (nb : PythonBlock) (hInv : PyInv L n blocks stack) (hnL : n < L)
    (hs : nb.startLine = n) (he : nb.endLine = L - 1) :
    PyInv L (n + 1) (blocks ++ [nb]) (blocks.length :: stack) := by
  have hlen : (blocks ++ [nb]).length = blocks.length + 1 := by simp
  have hstart_lt : ∀ i, i < blocks.length → (blockAt blocks i).startLine < n := by
    intro i hlt
    by_cases hi : i ∈ stack
    · exact hInv.open_start i hi
    · have := hInv.closed_ok i hlt hi
      omega
  constructor
  · omega
  · intro i hi
    rw [hlen]
    rcases List.mem_cons.mp hi with h1 | h1
    · omega
    · have := hInv.stack_lt i h1
      omega
  · rw [List.pairwise_cons]
    exact ⟨fun i hi => hInv.stack_lt i hi, hInv.stack_sorted⟩
  · intro i hi
    rcases List.mem_cons.mp hi with h1 | h1
    · subst h1
      rw [blockAt_append_self]
      exact he
    · rw [blockAt_append_lt _ _ _ (hInv.stack_lt i h1)]
      exact hInv.open_end i h1
  · intro i hi
    rcases List.mem_cons.mp hi with h1 | h1
    · subst h1
      rw [blockAt_append_self, hs]
      omega
    · rw [blockAt_append_lt _ _ _ (hInv.stack_lt i h1)]
      have := hInv.open_start i h1
      omega
  · intro i hlt hnot
    rw [hlen] at hlt
    have hne : i ≠ blocks.length := fun hc => hnot (hc ▸ List.mem_cons_self _ _)
    have hilt : i < blocks.length := by omega
    rw [blockAt_append_lt _ _ _ hilt]
    have := hInv.closed_ok i hilt (fun hm => hnot (List.mem_cons_of_mem _ hm))
    omega
  · intro i j hij hjlt
    rw [hlen] at hjlt
    by_cases hj : j = blocks.length
    · subst hj
      have hilt : i < blocks.length := hij
      rw [blockAt_append_lt _ _ _ hilt, blockAt_append_self, hs]
      exact hstart_lt i hilt
    · have hjlt2 : j < blocks.length := by omega
      rw [blockAt_append_lt _ _ _ (Nat.lt_trans hij hjlt2),
        blockAt_append_lt _ _ _ hjlt2]
      exact hInv.starts_mono i j hij hjlt2
  · intro i j hij hjlt hinot hjmem
    rw [hlen] at hjlt
    rcases List.mem_cons.mp hjmem with h1 | h1
    · subst h1
      have hilt : i < blocks.length := hij
      rw [blockAt_append_lt _ _ _ hilt, blockAt_append_self, hs]
      have hine : i ≠ blocks.length := by omega
      have := hInv.closed_ok i hilt
        (fun hm => hinot (List.mem_cons_of_mem _ hm))
      omega
    · have hjlt2 : j < blocks.length := hInv.stack_lt j h1
      rw [blockAt_append_lt _ _ _ (Nat.lt_trans hij hjlt2),
        blockAt_append_lt _ _ _ hjlt2]
      exact hInv.closed_open i j hij hjlt2
        (fun hm => hinot (List.mem_cons_of_mem _ hm)) h1
  · intro i j hij hjlt hinot hjnot
    rw [hlen] at hjlt
    have hjne : j ≠ blocks.length := fun hc => hjnot (hc ▸ List.mem_cons_self _ _)
    have hjlt2 : j < blocks.length := by omega
    rw [blockAt_append_lt _ _ _ (Nat.lt_trans hij hjlt2),
      blockAt_append_lt _ _ _ hjlt2]
    exact hInv.closed_closed i j hij hjlt2
      (fun hm => hinot (List.mem_cons_of_mem _ hm))
      (fun hm => hjnot (List.mem_cons_of_mem _ hm))

theorem pyProcessLine_inv (L n : Nat) (blocks : List PythonBlock) (stack : List Nat)
    (line : Str) (hInv : PyInv L n blocks stack) (hn : n < L) :
    PyInv L (n + 1) (pyProcessLine L blocks stack n line).1
      (pyProcessLine L blocks stack n line).2 := by
  unfold pyProcessLine
  split
  · exact hInv.succ hn
  · cases hpw : popWhile (getPythonIndent line) n blocks stack with
    | mk blocks2 stack2 =>
        have hpair := popWhile_inv L (getPythonIndent line) n stack blocks hInv
        rw [hpw] at hpair
        obtain ⟨hInv2, hlen2⟩ := hpair
        cases hcm : pyClassMatch (trimStr line) with
        | some className =>
            exact push_inv L n blocks2 stack2 _ hInv2 hn rfl rfl
        | none =>
            cases hdm : pyDefMatch (trimStr line) with
            | some defName =>
                exact push_inv L n blocks2 stack2 _ hInv2 hn rfl rfl
            | none => exact hInv2.succ hn

theorem pyLoop_inv (L : Nat) :
    ∀ (ls : List Str) (n : Nat) (blocks : List PythonBlock) (stack : List Nat),
      PyInv L n blocks stack → n + ls.length = L →
      PyInv L L (pyLoop L ls n blocks stack).1 (pyLoop L ls n blocks stack).2 := by
  intro ls
  induction ls with
  | nil =>
      intro n blocks stack hInv hlen
      have hn : n = L := by simpa using hlen
      subst hn
      exact hInv
  | cons l ls ih =>
      intro n blocks stack hInv hlen
      have hnL : n < L := by simp only [List.length_cons] at hlen; omega
      unfold pyLoop
      cases hpl : pyProcessLine L blocks stack n l with
      | mk b2 s2 =>
          have h2 := pyProcessLine_inv L n blocks stack l hInv hnL
          rw [hpl] at h2
          exact ih (n + 1) b2 s2 h2 (by simp only [List.length_cons] at hlen; omega)

theorem set_get_self {α : Type} :
    ∀ (l : List α) (i : Nat) (x : α), l.get? i = some x → l.set i x = l := by
  intro l
  induction l with
  | nil => intro i x h; cases h
  | cons a t ih =>
      intro i x h
      cases i with
      | zero =>
          simp only [List.get?] at h
          cases h
          rfl
      | succ i =>
          simp only [List.get?] at h
          simp only [List.set]
          rw [ih i x h]

theorem finalPop_id (L : Nat) :
    ∀ (stack : List Nat) (blocks : List PythonBlock),
      (∀ i ∈ stack, i < blocks.length ∧ (blockAt blocks i).endLine = L - 1) →
      finalPop L blocks stack = blocks := by
  intro stack
  induction stack with
  | nil => intro blocks _; rfl
  | cons top rest ih =>
      intro blocks h
      obtain ⟨hlt, hend⟩ := h top (List.mem_cons_self _ _)
      have hbg : blocks.get? top = some (blockAt blocks top) := by
        simp [blockAt, List.get?_eq_getElem?, List.getElem?_eq_getElem hlt]
      unfold finalPop
      simp only [hbg]
      have hupd : { blockAt blocks top with endLine := L - 1 } = blockAt blocks top := by
        cases hb : blockAt blocks top
        rw [hb] at hend
        simp only at hend ⊢
        rw [hend]
      rw [hupd, set_get_self blocks top _ hbg]
      exact ih blocks (fun i hi => h i (List.mem_cons_of_mem _ hi))

/-- C7: the blocks returned by `parsePythonBlocks` all satisfy
`startLine ≤ endLine`, and any two of them have inclusive line ranges that
are either disjoint or related by containment — the blocks nest as a tree. -/
theorem parsePythonBlocks_laminar (fullText : Str) :
    (∀ b ∈ parsePythonBlocks fullText, b.startLine ≤ b.endLine) ∧
    (∀ i j, i < j → j < (parsePythonBlocks fullText).length →
      laminarPair (blockAt (parsePythonBlocks fullText) i)
        (blockAt (parsePythonBlocks fullText) j)) := by
  have h0 : PyInv (splitLines fullText).length 0 [] [] := by
    constructor
    · exact Nat.zero_le _
    · intro i hi; cases hi
    · exact List.Pairwise.nil
    · intro i hi; cases hi
    · intro i hi; cases hi
    · intro i hlt; cases hlt
    · intro i j hij hjlt; cases hjlt
    · intro i j hij hjlt; cases hjlt
    · intro i j hij hjlt; cases hjlt
  have hloop := pyLoop_inv (splitLines fullText).length (splitLines fullText) 0 [] []
    h0 (by simp)
  unfold parsePythonBlocks
  cases hpl : pyLoop (splitLines fullText).length (splitLines fullText) 0 [] [] with
  | mk blocks stack =>
      rw [hpl] at hloop
      dsimp only at hloop ⊢
      rw [finalPop_id _ _ _
        (fun i hi => ⟨hloop.stack_lt i hi, hloop.open_end i hi⟩)]
      set L := (splitLines fullText).length with hLdef
      constructor
      · intro b hb
        obtain ⟨i, hget⟩ := List.mem_iff_get?.mp hb
        have hlt : i < blocks.length := by
          by_contra hcon
          rw [List.get?_eq_getElem?, List.getElem?_eq_none (by omega)] at hget
          cases hget
        have hba : blockAt blocks i = b := by
          rw [List.get?_eq_getElem?] at hget
          simp [blockAt, List.get?_eq_getElem?, hget]
        rw [← hba]
        by_cases hi : i ∈ stack
        · have h1 := hloop.open_start i hi
          have h2 := hloop.open_end i hi
          omega
        · exact (hloop.closed_ok i hlt hi).1
      · intro i j hij hjlt
        have hilt : i < blocks.length := Nat.lt_trans hij hjlt
        by_cases hi : i ∈ stack
        · by_cases hj : j ∈ stack
          · -- both open: both end at L - 1 and starts increase: containment
            right; right; left
            have := hloop.starts_mono i j hij hjlt
            rw [hloop.open_end i hi, hloop.open_end j hj]
            omega
          · -- i open, j closed: j ended before L, i ends at L - 1: containment
            right; right; left
            have h1 := hloop.starts_mono i j hij hjlt
            have h2 := (hloop.closed_ok j hjlt hj).2
            rw [hloop.open_end i hi]
            omega
        · by_cases hj : j ∈ stack
          · -- i closed, j open: i ended before j started: disjoint
            right; left
            exact hloop.closed_open i j hij hjlt hi hj
          · rcases hloop.closed_closed i j hij hjlt hi hj with h1 | h1
            · right; left; exact h1
            · right; right; left
              exact ⟨Nat.le_of_lt (hloop.starts_mono i j hij hjlt), h1⟩

/-- C7 witness: on the concrete five-line program, blocks 0 (`class A`) and
1 (`def A.m`) are related by containment. -/
theorem parsePythonBlocks_laminar_witness :
    laminarPair
      (blockAt (parsePythonBlocks
        "class A:\n    def m(self):\n        pass\ndef top():\n    pass".data) 0)
      (blockAt (parsePythonBlocks
        "class A:\n    def m(self):\n        pass\ndef top():\n    pass".data) 1) :=
  (parsePythonBlocks_laminar
    "class A:\n    def m(self):\n        pass\ndef top():\n    pass".data).2
    0 1 (by decide) (by decide)

/-! ## Python label strategy (references.ts lines 174-241, 333-405) -/

structure ReferenceEntry where
  relativePath : Str
  lineText : Str
  label : Option Str
deriving DecidableEq, Repr

mutual

/-- `replace(/\\\s*\r?\n\s*/g, '')`: a backslash whose following maximal
whitespace run contains a newline is removed together with that whole run
(the greedy trailing `\s*` extends the match to the end of the run);
otherwise characters pass through and scanning continues. -/
def stripCont : Str → Str
  | [] => []
  | c :: rest =>
      if c = '\\' ∧ '\n' ∈ rest.takeWhile isWs then stripContSkip rest
      else c :: stripCont rest

/-- Consume the whitespace run of a line-continuation match, then resume
scanning (a following backslash may start a new match). -/
def stripContSkip : Str → Str
  | [] => []
  | c :: rest =>
      if isWs c then stripContSkip rest
      else if c = '\\' ∧ '\n' ∈ rest.takeWhile isWs then stripContSkip rest
      else c :: stripCont rest

end

mutual

/-- `replace(/\s*\.\s*/g, '.')`: each dot, together with the whitespace
around it, becomes a bare dot; a whitespace run is swallowed exactly when it
leads to a dot. -/
def collapseDots : Str → Str
  | [] => []
  | c :: rest =>
      if c = '.' then '.' :: dotsTrail rest
      else if isWs c ∧ (rest.dropWhile isWs).head? = some '.' then dotsPre rest
      else c :: collapseDots rest

/-- Inside the leading whitespace of a `\s*\.\s*` match (a dot is ahead). -/
def dotsPre : Str → Str
  | [] => []
  | c :: rest => if c = '.' then '.' :: dotsTrail rest else dotsPre rest

/-- Swallow the trailing whitespace after a matched dot; a further dot
starts a new match immediately. -/
def dotsTrail : Str → Str
  | [] => []
  | c :: rest =>
      if isWs c then dotsTrail rest
      else if c = '.' then '.' :: dotsTrail rest
      else c :: collapseDots rest

end

/-- references.ts lines 379-384. -/
def normalizePythonSelectionText (selectionText : Str) : Str :=
  trimStr (collapseDots (stripCont selectionText))

def isPyIdentStr (s : Str) : Bool :=
  match s with
  | [] => false
  | c :: cs => isPyIdentStart c && cs.all isWordCh

/-- The anchored regex `^([A-Za-z_]\w*(?:\.[A-Za-z_]\w*)+)$`: at least two
dot-separated identifier components. -/
def pyDottedMatch (s : Str) : Bool :=
  decide (2 ≤ (s.splitOn '.').length) && (s.splitOn '.').all isPyIdentStr

/-- references.ts lines 354-377. -/
def findPythonSelectionLabel (selectionText : Str) : Option Str :=
  if trimStr selectionText = [] then none
  else
    (fun normalized =>
      if pyDottedMatch normalized then some normalized
      else
        match pyClassMatch normalized with
        | some nm => some nm
        | none => if isPyIdentStr normalized then some normalized else none)
    (normalizePythonSelectionText (trimStr selectionText))

/-- references.ts lines 333-352: smallest `def` block (by line width)
containing the cursor line; strict `<` keeps the first of equal widths. -/
def findEnclosingPythonDef (blocks : List PythonBlock) (cursorLine : Nat) :
    Option PythonBlock :=
  blocks.foldl (fun best block =>
    if block.kind ≠ PyKind.pyDef then best
    else if cursorLine < block.startLine ∨ block.endLine < cursorLine then best
    else
      match best with
      | none => some block
      | some b =>
          if block.endLine - block.startLine < b.endLine - b.startLine then some block
          else best)
    none

/-- references.ts lines 386-405: same search over `class` blocks. -/
def findEnclosingPythonClass (blocks : List PythonBlock) (cursorLine : Nat) :
    Option PythonBlock :=
  blocks.foldl (fun best block =>
    if block.kind ≠ PyKind.pyClass then best
    else if cursorLine < block.startLine ∨ block.endLine < cursorLine then best
    else
      match best with
      | none => some block
      | some b =>
          if block.endLine - block.startLine < b.endLine - b.startLine then some block
          else best)
    none

/-- references.ts lines 174-241. -/
def addPythonEntries (entries : List ReferenceEntry)
    (relativePath lineText fullText selectionText : Str)
    (selectionStartLine selectionEndLine cursorLine : Nat) : List ReferenceEntry :=
  let blocks := parsePythonBlocks fullText
  let e1 := blocks.foldl (fun es block =>
      if block.kind ≠ PyKind.pyClass then es
      else if selectionStartLine ≤ block.startLine ∧ block.startLine ≤ selectionEndLine then
        es ++ [⟨relativePath, lineText, some block.label⟩]
      else es) entries
  let e2 := blocks.foldl (fun es block =>
      if block.kind ≠ PyKind.pyDef then es
      else if selectionStartLine ≤ block.startLine ∧ block.startLine ≤ selectionEndLine then
        es ++ [⟨relativePath, lineText, some block.label⟩]
      else es) e1
  if e2 ≠ [] then e2
  else
    match findPythonSelectionLabel selectionText with
    | some selectionLabel => e2 ++ [⟨relativePath, lineText, some selectionLabel⟩]
    | none =>
        match findEnclosingPythonDef blocks cursorLine with
        | none =>
            e2 ++ [⟨relativePath, lineText,
              (findEnclosingPythonClass blocks cursorLine).map (·.label)⟩]
        | some enclosing => e2 ++ [⟨relativePath, lineText, some enclosing.label⟩]

/-- C2 counterexample: selecting lines 0-1 of a three-line buffer whose only
`def` block in range is `A.m` also emits an entry for the `class A` block
(class entries are pushed first), so the strategy does not emit def entries
only. -/
theorem addPythonEntries_class_entry_cex :
    addPythonEntries [] "f.py".data "1-2".data
        "class A:\n    def m(self):\n        pass".data [] 0 1 0 =
      [⟨"f.py".data, "1-2".data, some "A".data⟩,
       ⟨"f.py".data, "1-2".data, some "A.m".data⟩] ∧
    parsePythonBlocks "class A:\n    def m(self):\n        pass".data =
      [⟨PyKind.pyClass, "A".data, "A".data, 0, 0, 2⟩,
       ⟨PyKind.pyDef, "m".data, "A.m".data, 4, 1, 2⟩] := by decide

theorem foldl_push_filter {β : Type} (p : PythonBlock → Bool) (f : PythonBlock → β) :
    ∀ (bs : List PythonBlock) (es : List β),
      bs.foldl (fun es b => if p b then es ++ [f b] else es) es =
        es ++ (bs.filter p).map f := by
  intro bs
  induction bs with
  | nil => intro es; simp
  | cons b rest ih =>
      intro es
      by_cases hp : p b
      · rw [List.foldl_cons, if_pos hp, ih, List.filter_cons]
        simp [hp]
      · rw [List.foldl_cons, if_neg hp, ih, List.filter_cons]
        simp [hp]

def pyEntryOf (relativePath lineText : Str) (b : PythonBlock) : ReferenceEntry :=
  ⟨relativePath, lineText, some b.label⟩

def pyInRange (kind : PyKind) (s e : Nat) (b : PythonBlock) : Bool :=
  decide (b.kind = kind) && decide (s ≤ b.startLine) && decide (b.startLine ≤ e)

theorem addPythonEntries_fold_eq (kind : PyKind) (relativePath lineText : Str)
    (s e : Nat) (bs : List PythonBlock) (es : List ReferenceEntry) :
    bs.foldl (fun es block =>
        if block.kind ≠ kind then es
        else if s ≤ block.startLine ∧ block.startLine ≤ e then
          es ++ [(⟨relativePath, lineText, some block.label⟩ : ReferenceEntry)]
        else es) es =
      es ++ (bs.filter (pyInRange kind s e)).map (pyEntryOf relativePath lineText) := by
  have hfun : (fun (es : List ReferenceEntry) (block : PythonBlock) =>
      if block.kind ≠ kind then es
      else if s ≤ block.startLine ∧ block.startLine ≤ e then
        es ++ [(⟨relativePath, lineText, some block.label⟩ : ReferenceEntry)]
      else es) =
      (fun es b => if pyInRange kind s e b then
          es ++ [pyEntryOf relativePath lineText b] else es) := by
    funext es b
    by_cases h1 : b.kind = kind
    · by_cases h2 : s ≤ b.startLine ∧ b.startLine ≤ e
      · simp [pyInRange, pyEntryOf, h1, h2]
      · rcases Decidable.not_and_iff_or_not.mp h2 with h3 | h3 <;>
          simp [pyInRange, h1, h3]
    · simp [pyInRange, h1]
  rw [hfun, foldl_push_filter]

/-- C2 (amended): when the selection's line range contains the `startLine` of
at least one `def` block, `addPythonEntries` (called with an empty entry
list) returns one entry per `class` block whose `startLine` is in range
followed by one entry per `def` block whose `startLine` is in range, each
entry labelled with the block's qualified label — so exactly the def entries
only when no class header line lies inside the selection. -/
theorem addPythonEntries_in_range (relativePath lineText fullText selectionText : Str)
    (s e cur : Nat)
    (hdef : ∃ b ∈ parsePythonBlocks fullText,
      b.kind = PyKind.pyDef ∧ s ≤ b.startLine ∧ b.startLine ≤ e) :
    addPythonEntries [] relativePath lineText fullText selectionText s e cur =
      ((parsePythonBlocks fullText).filter (pyInRange PyKind.pyClass s e)).map
        (pyEntryOf relativePath lineText) ++
      ((parsePythonBlocks fullText).filter (pyInRange PyKind.pyDef s e)).map
        (pyEntryOf relativePath lineText) := by
  unfold addPythonEntries
  dsimp only
  rw [addPythonEntries_fold_eq, addPythonEntries_fold_eq]
  obtain ⟨b, hbmem, hbkind, hbs, hbe⟩ := hdef
  have hbfilter : b ∈ (parsePythonBlocks fullText).filter (pyInRange PyKind.pyDef s e) := by
    rw [List.mem_filter]
    exact ⟨hbmem, by simp [pyInRange, hbkind, hbs, hbe]⟩
  have hne : ([] : List ReferenceEntry) ++
      ((parsePythonBlocks fullText).filter (pyInRange PyKind.pyClass s e)).map
        (pyEntryOf relativePath lineText) ++
      ((parsePythonBlocks fullText).filter (pyInRange PyKind.pyDef s e)).map
        (pyEntryOf relativePath lineText) ≠ [] := by
    intro hc
    rcases List.append_eq_nil.mp hc with ⟨-, h2⟩
    rw [List.map_eq_nil_iff] at h2
    rw [h2] at hbfilter
    cases hbfilter
  rw [if_pos hne]
  simp

theorem addPythonEntries_in_range_witness :
    addPythonEntries [] "f.py".data "1-2".data
        "class A:\n    def m(self):\n        pass".data [] 0 1 0 =
      ((parsePythonBlocks "class A:\n    def m(self):\n        pass".data).filter
        (pyInRange PyKind.pyClass 0 1)).map (pyEntryOf "f.py".data "1-2".data) ++
      ((parsePythonBlocks "class A:\n    def m(self):\n        pass".data).filter
        (pyInRange PyKind.pyDef 0 1)).map (pyEntryOf "f.py".data "1-2".data) :=
  addPythonEntries_in_range "f.py".data "1-2".data
    "class A:\n    def m(self):\n        pass".data [] 0 1 0 (by decide)

/-! ## HTML tag locator (references.ts lines 136-163) -/

/-- JavaScript `s.lastIndexOf(c, k)`: the greatest index `j ≤ k` holding `c`
(out-of-range positions never match). -/
def lastIndexOfCh (s : Str) (c : Char) : Nat → Option Nat
  | 0 => if s.get? 0 = some c then some 0 else none
  | k + 1 => if s.get? (k + 1) = some c then some (k + 1) else lastIndexOfCh s c k

/-- The regex `^<\s*([A-Za-z][\w:-]*)` applied to a snippet. -/
def openingNameOf (snippet : Str) : Option Str :=
  match snippet with
  | '<' :: rest =>
      match rest.dropWhile isWs with
      | c :: cs => if isAsciiLetter c then some (c :: cs.takeWhile isTagNameCh) else none
      | [] => none
  | _ => none

/-- Does the 200-character snippet starting at the `<` begin with `</`, `<!`
or `<?` (not an opening tag: search continues)? -/
def skipSnippet (snippet : Str) : Bool :=
  "</".data.isPrefixOf snippet || "<!".data.isPrefixOf snippet ||
    "<?".data.isPrefixOf snippet

/-- The backward-scanning `while` loop of `findEnclosingHtmlTagName` (lines
142-160).  Each iteration jumps to the previous `<`; the fuel bounds the
iteration count (the scan position strictly decreases, so `index + 1`
suffices). -/
def htmlTagLoop (fullText : Str) : Nat → Nat → Option Str
  | 0, _ => none
  | fuel + 1, index =>
      match lastIndexOfCh fullText '<' index with
      | none => none
      | some lt =>
          if skipSnippet ((fullText.drop lt).take 200) then
            if lt = 0 then none else htmlTagLoop fullText fuel (lt - 1)
          else
            match openingNameOf ((fullText.drop lt).take 200) with
            | some nm => some nm
            | none => if lt = 0 then none else htmlTagLoop fullText fuel (lt - 1)

/-- references.ts lines 136-163. -/
def findEnclosingHtmlTagName (fullText : Str) (focusPos : Nat) : Option Str :=
  if focusPos = 0 then none
  else htmlTagLoop fullText (min focusPos fullText.length + 1) (min focusPos fullText.length)

/-- Declarative reference function: the name at the greatest position
`j ≤ k` whose 200-character snippet matches the opening-tag pattern, if
any. -/
def openingSearch (s : Str) : Nat → Option Str
  | 0 => openingNameOf ((s.drop 0).take 200)
  | k + 1 =>
      match openingNameOf ((s.drop (k + 1)).take 200) with
      | some nm => some nm
      | none => openingSearch s k

theorem lastIndexOfCh_spec (s : Str) (c : Char) :
    ∀ (k j : Nat), lastIndexOfCh s c k = some j →
      j ≤ k ∧ s.get? j = some c ∧ ∀ i, j < i → i ≤ k → s.get? i ≠ some c := by
  intro k
  induction k with
  | zero =>
      intro j h
      unfold lastIndexOfCh at h
      split at h
      · cases h
        exact ⟨Nat.le_refl _, by assumption, fun i h1 h2 => by omega⟩
      · cases h
  | succ k ih =>
      intro j h
      unfold lastIndexOfCh at h
      split at h
      · cases h
        exact ⟨Nat.le_refl _, by assumption, fun i h1 h2 => by omega⟩
      · rename_i hne
        obtain ⟨h1, h2, h3⟩ := ih j h
        refine ⟨by omega, h2, ?_⟩
        intro i hi1 hi2
        rcases Nat.lt_or_ge i (k + 1) with hc | hc
        · exact h3 i hi1 (by omega)
        · have : i = k + 1 := by omega
          subst this
          exact hne

theorem lastIndexOfCh_none (s : Str) (c : Char) :
    ∀ (k : Nat), lastIndexOfCh s c k = none → ∀ i ≤ k, s.get? i ≠ some c := by
  intro k
  induction k with
  | zero =>
      intro h i hi
      unfold lastIndexOfCh at h
      split at h
      · cases h
      · have : i = 0 := by omega
        subst this
        assumption
  | succ k ih =>
      intro h i hi
      unfold lastIndexOfCh at h
      split at h
      · cases h
      · rename_i hne
        rcases Nat.lt_or_ge i (k + 1) with hc | hc
        · exact ih h i (by omega)
        · have : i = k + 1 := by omega
          subst this
          exact hne

theorem openingNameOf_head (t : Str) (nm : Str) (h : openingNameOf t = some nm) :
    t.head? = some '<' := by
  unfold openingNameOf at h
  split at h
  · rfl
  · cases h

theorem openingMatch_lt (s : Str) (j : Nat) (nm : Str)
    (h : openingNameOf ((s.drop j).take 200) = some nm) : s.get? j = some '<' := by
  have h1 := openingNameOf_head _ _ h
  rw [List.get?_eq_getElem?, ← List.head?_drop]
  rcases hd : s.drop j with _ | ⟨a, t⟩
  · rw [hd] at h1
    simp at h1
  · rw [hd] at h1
    have h2 : ((a :: t).take 200).head? = some a := rfl
    rw [h2] at h1
    simp only [List.head?]
    exact h1

theorem openingSearch_zero (s : Str) :
    openingSearch s 0 = openingNameOf ((s.drop 0).take 200) := rfl

theorem openingSearch_succ (s : Str) (k : Nat) :
    openingSearch s (k + 1) =
      match openingNameOf ((s.drop (k + 1)).take 200) with
      | some nm => some nm
      | none => openingSearch s k := rfl

theorem openingSearch_none_of_no_lt (s : Str) :
    ∀ k, (∀ j, j ≤ k → s.get? j ≠ some '<') → openingSearch s k = none := by
  intro k
  induction k with
  | zero =>
      intro h
      rw [openingSearch_zero]
      cases hop : openingNameOf ((s.drop 0).take 200) with
      | none => rfl
      | some nm =>
          exact absurd (openingMatch_lt s 0 nm hop) (h 0 (Nat.le_refl _))
  | succ k ih =>
      intro h
      rw [openingSearch_succ]
      cases hop : openingNameOf ((s.drop (k + 1)).take 200) with
      | some nm =>
          exact absurd (openingMatch_lt s (k + 1) nm hop) (h (k + 1) (Nat.le_refl _))
      | none =>
          exact ih (fun j hj => h j (by omega))

theorem openingSearch_congr (s : Str) :
    ∀ (b a : Nat), a ≤ b → (∀ j, a < j → j ≤ b → s.get? j ≠ some '<') →
      openingSearch s b = openingSearch s a := by
  intro b
  induction b with
  | zero =>
      intro a hab _
      have : a = 0 := by omega
      subst this
      rfl
  | succ b ih =>
      intro a hab hno
      rcases Nat.lt_or_ge a (b + 1) with hc | hc
      · have hcur : openingNameOf ((s.drop (b + 1)).take 200) = none := by
          cases hop : openingNameOf ((s.drop (b + 1)).take 200) with
          | none => rfl
          | some nm =>
              exact absurd (openingMatch_lt s (b + 1) nm hop)
                (hno (b + 1) (by omega) (Nat.le_refl _))
        rw [openingSearch_succ, hcur]
        exact ih a (by omega) (fun j h1 h2 => hno j h1 (by omega))
      · have : a = b + 1 := by omega
        subst this
        rfl

theorem skipSnippet_no_opening (t : Str) (h : skipSnippet t = true) :
    openingNameOf t = none := by
  unfold skipSnippet at h
  simp only [Bool.or_eq_true] at h
  rcases h with (h | h) | h <;>
  · obtain ⟨u, hu⟩ := List.isPrefixOf_iff_prefix.mp h
    rw [← hu]
    rfl

theorem htmlTagLoop_spec (fullText : Str) :
    ∀ (fuel index : Nat), index < fuel →
      htmlTagLoop fullText fuel index = openingSearch fullText index := by
  intro fuel
  induction fuel with
  | zero => intro index h; omega
  | succ fuel ih =>
      intro index hlt
      unfold htmlTagLoop
      cases hli : lastIndexOfCh fullText '<' index with
      | none =>
          have hno := lastIndexOfCh_none fullText '<' index hli
          rw [openingSearch_none_of_no_lt fullText index (fun j hj => hno j hj)]
      | some lt =>
          obtain ⟨hle, hc, hno⟩ := lastIndexOfCh_spec fullText '<' index lt hli
          have hcongr : openingSearch fullText index = openingSearch fullText lt :=
            openingSearch_congr fullText index lt hle (fun j h1 h2 => hno j h1 h2)
          rw [hcongr]
          dsimp only
          by_cases hskip : skipSnippet ((fullText.drop lt).take 200) = true
          · rw [if_pos hskip]
            have hopn : openingNameOf ((fullText.drop lt).take 200) = none :=
              skipSnippet_no_opening _ hskip
            by_cases hlt0 : lt = 0
            · rw [if_pos hlt0]
              subst hlt0
              rw [openingSearch_zero, hopn]
            · rw [if_neg hlt0]
              rw [ih (lt - 1) (by omega)]
              rcases Nat.exists_eq_succ_of_ne_zero hlt0 with ⟨k, hk⟩
              subst hk
              rw [openingSearch_succ, hopn]
              exact rfl
          · rw [if_neg hskip]
            cases hop : openingNameOf ((fullText.drop lt).take 200) with
            | some nm =>
                rcases Nat.eq_zero_or_pos lt with h0 | h0
                · subst h0
                  rw [openingSearch_zero, hop]
                · rcases Nat.exists_eq_succ_of_ne_zero (by omega : lt ≠ 0) with ⟨k, hk⟩
                  subst hk
                  rw [openingSearch_succ, hop]
            | none =>
                by_cases hlt0 : lt = 0
                · rw [if_pos hlt0]
                  subst hlt0
                  rw [openingSearch_zero, hop]
                · rw [if_neg hlt0]
                  rw [ih (lt - 1) (by omega)]
                  rcases Nat.exists_eq_succ_of_ne_zero hlt0 with ⟨k, hk⟩
                  subst hk
                  rw [openingSearch_succ, hop]
                  exact rfl

/-- C8: the backward scan of `findEnclosingHtmlTagName` returns exactly the
opening-tag name at the greatest `<` position `≤ min(cursor, length)` whose
snippet matches the opening-tag pattern — `<` positions whose snippet begins
`</`, `<!` or `<?` never match and are skipped — and returns none when the
cursor is at offset 0 or no position matches; on
`<div><span>cursor_here</span></div>` with the cursor inside `cursor_here`
it returns `span`, not `div`. -/
theorem findEnclosingHtmlTagName_spec :
    (∀ (fullText : Str) (focusPos : Nat),
      findEnclosingHtmlTagName fullText focusPos =
        if focusPos = 0 then none
        else openingSearch fullText (min focusPos fullText.length)) ∧
    findEnclosingHtmlTagName "<div><span>cursor_here</span></div>".data 15 =
      some "span".data := by
  constructor
  · intro fullText focusPos
    unfold findEnclosingHtmlTagName
    by_cases h0 : focusPos = 0
    · rw [if_pos h0, if_pos h0]
    · rw [if_neg h0, if_neg h0]
      exact htmlTagLoop_spec fullText _ _ (Nat.lt_succ_self _)
  · decide

/-! ## Selections and line ranges (references.ts lines 108-119, 42-49) -/

/-- Host-editor position: 0-based line and character. -/
structure Pos where
  line : Nat
  character : Nat
deriving DecidableEq, Repr

/-- Host-editor selection: anchor and active ends; `start`/`end` are the two
ends in document order. -/
structure Selection where
  anchor : Pos
  active : Pos
deriving DecidableEq, Repr

def posLeB (a b : Pos) : Bool :=
  decide (a.line < b.line) || (decide (a.line = b.line) && decide (a.character ≤ b.character))

def selStart (sel : Selection) : Pos :=
  if posLeB sel.anchor sel.active then sel.anchor else sel.active

def selEnd (sel : Selection) : Pos :=
  if posLeB sel.anchor sel.active then sel.active else sel.anchor

def selIsEmpty (sel : Selection) : Bool := decide (selStart sel = selEnd sel)

/-- references.ts lines 108-119. -/
def getSelectionLineRange (sel : Selection) : Nat × Nat :=
  if selIsEmpty sel then (sel.active.line, sel.active.line)
  else
    if (selEnd sel).character = 0 ∧ (selStart sel).line < (selEnd sel).line then
      ((selStart sel).line, (selEnd sel).line - 1)
    else ((selStart sel).line, (selEnd sel).line)

def natToStr (n : Nat) : Str := (Nat.repr n).data

/-- references.ts line 49: `"N"` or `"start-end"`, 1-based. -/
def lineTextOf (startLine endLine : Nat) : Str :=
  if startLine = endLine then natToStr (startLine + 1)
  else natToStr (startLine + 1) ++ '-' :: natToStr (endLine + 1)

theorem selIsEmpty_active (sel : Selection) (h : selIsEmpty sel = true) :
    selStart sel = sel.active ∧ selEnd sel = sel.active := by
  unfold selIsEmpty at h
  rw [decide_eq_true_iff] at h
  unfold selStart selEnd at h ⊢
  by_cases hp : posLeB sel.anchor sel.active = true
  · simp only [if_pos hp] at h ⊢
    exact ⟨h, trivial⟩
  · simp only [if_neg hp] at h ⊢
    exact ⟨trivial, h.symm⟩

/-- C10: a non-empty selection whose end sits at character 0 of a line
strictly after the start line reports `endLine - 1`; every other selection
(including empty ones, whose start, end and active positions coincide)
reports the raw start and end lines; and the rendered `path:start-end` line
text is built from the adjusted range, so the end line is excluded in the
first case. -/
theorem getSelectionLineRange_spec (sel : Selection) :
    (selIsEmpty sel = false → (selEnd sel).character = 0 →
      (selStart sel).line < (selEnd sel).line →
      getSelectionLineRange sel = ((selStart sel).line, (selEnd sel).line - 1) ∧
      lineTextOf (getSelectionLineRange sel).1 (getSelectionLineRange sel).2 =
        lineTextOf (selStart sel).line ((selEnd sel).line - 1)) ∧
    (selIsEmpty sel = false →
      ¬ ((selEnd sel).character = 0 ∧ (selStart sel).line < (selEnd sel).line) →
      getSelectionLineRange sel = ((selStart sel).line, (selEnd sel).line)) ∧
    (selIsEmpty sel = true →
      getSelectionLineRange sel = ((selStart sel).line, (selEnd sel).line)) := by
  refine ⟨?_, ?_, ?_⟩
  · intro hne hch hlt
    unfold getSelectionLineRange
    rw [hne]
    rw [if_neg (by simp), if_pos ⟨hch, hlt⟩]
    exact ⟨rfl, rfl⟩
  · intro hne hcond
    unfold getSelectionLineRange
    rw [hne]
    rw [if_neg (by simp), if_neg hcond]
  · intro hemp
    obtain ⟨h1, h2⟩ := selIsEmpty_active sel hemp
    unfold getSelectionLineRange
    rw [hemp, if_pos rfl, h1, h2]

theorem getSelectionLineRange_spec_witness :
    getSelectionLineRange ⟨⟨1, 3⟩, ⟨3, 0⟩⟩ = (1, 2) ∧
      lineTextOf (getSelectionLineRange ⟨⟨1, 3⟩, ⟨3, 0⟩⟩).1
          (getSelectionLineRange ⟨⟨1, 3⟩, ⟨3, 0⟩⟩).2 =
        lineTextOf 1 2 :=
  ((getSelectionLineRange_spec ⟨⟨1, 3⟩, ⟨3, 0⟩⟩).1 (by decide) (by decide) (by decide))

/-! ## Structural (TS/JS) traversal (references.ts lines 407-675)

The TypeScript parser (`ts.createSourceFile`) is an external library; its
output is modelled by the abstract syntax-node type `TsNode`, which carries
exactly what the traversal reads: the node kind, the trivia-skipping start
offset (`getStart`), the end offset (`getEnd`), the name payloads the
classification rules inspect, and the child nodes.  A `variableDeclaration`
records `some txt` for a simple-identifier binding name and `none` for a
binding pattern; `computed` property names and `propertyAccess` nodes carry
their `getText` source text.  Reference equality with a parent's field
(`parent.initializer === node`, `parent.right === node`) is modelled by the
child's role in its parent, threaded down the traversal. -/

inductive TsPropName where
  | ident (text : Str)
  | strLit (text : Str)
  | numLit (text : Str)
  | computed (text : Str)
  | otherProp
deriving DecidableEq, Repr

inductive TsNode where
  | functionDeclaration (name : Option Str) (start fin : Nat) (body : List TsNode)
  | variableDeclaration (nameIdent : Option Str) (vinit : Option TsNode) (start fin : Nat)
  | arrowFunction (start fin : Nat) (body : List TsNode)
  | functionExpression (start fin : Nat) (body : List TsNode)
  | methodDeclaration (mname : Option TsPropName) (start fin : Nat) (body : List TsNode)
  | propertyDeclaration (pname : Option TsPropName) (pinit : Option TsNode) (start fin : Nat)
  | propertyAssignment (aname : TsPropName) (ainit : TsNode) (start fin : Nat)
  | classLike (cname : Option Str) (start fin : Nat) (members : List TsNode)
  | objectLiteral (start fin : Nat) (props : List TsNode)
  | binaryExpression (left : TsNode) (rightE : TsNode) (start fin : Nat)
  | identifier (text : Str) (start fin : Nat)
  | propertyAccess (text : Str) (start fin : Nat)
  | otherNode (start fin : Nat) (children : List TsNode)

/-- Which field of its parent a node occupies (stands in for the `===`
reference checks of the source). -/
inductive ChildRole where
  | varInit
  | binLeft
  | binRight
  | structChild
deriving DecidableEq, Repr

def nodeStart : TsNode → Nat
  | .functionDeclaration _ s _ _ => s
  | .variableDeclaration _ _ s _ => s
  | .arrowFunction s _ _ => s
  | .functionExpression s _ _ => s
  | .methodDeclaration _ s _ _ => s
  | .propertyDeclaration _ _ s _ => s
  | .propertyAssignment _ _ s _ => s
  | .classLike _ s _ _ => s
  | .objectLiteral s _ _ => s
  | .binaryExpression _ _ s _ => s
  | .identifier _ s _ => s
  | .propertyAccess _ s _ => s
  | .otherNode s _ _ => s

def nodeEnd : TsNode → Nat
  | .functionDeclaration _ _ e _ => e
  | .variableDeclaration _ _ _ e => e
  | .arrowFunction _ e _ => e
  | .functionExpression _ e _ => e
  | .methodDeclaration _ _ e _ => e
  | .propertyDeclaration _ _ _ e => e
  | .propertyAssignment _ _ _ e => e
  | .classLike _ _ e _ => e
  | .objectLiteral _ e _ => e
  | .binaryExpression _ _ _ e => e
  | .identifier _ _ e => e
  | .propertyAccess _ _ e => e
  | .otherNode _ e _ => e

/-- references.ts lines 609-623. -/
def getTypeScriptPropertyNameText : TsPropName → Option Str
  | .ident t => some t
  | .strLit t => some t
  | .numLit t => some t
  | .computed t => some t
  | .otherProp => none

/-- references.ts lines 625-648: `anc` is the object literal's parent
together with the object literal's role in it. -/
def getTypeScriptObjectLiteralOwnerName : Option (ChildRole × TsNode) → Option Str
  | none => none
  | some (role, TsNode.variableDeclaration nameIdent _ _ _) =>
      if role = ChildRole.varInit then nameIdent else none
  | some (role, TsNode.binaryExpression left _ _ _) =>
      if role = ChildRole.binRight then
        match left with
        | TsNode.identifier t _ _ => some t
        | TsNode.propertyAccess t _ _ => some t
        | _ => none
      else none
  | some _ => none

/-- references.ts lines 577-607: `ancs` is the ancestor chain
(role-in-parent, parent) pairs, nearest first. -/
def getTypeScriptMemberLabel (mname : Option TsPropName)
    (ancs : List (ChildRole × TsNode)) : Option Str :=
  match mname with
  | none => none
  | some nm =>
      match getTypeScriptPropertyNameText nm with
      | none => none
      | some memberName =>
          match ancs with
          | (_, TsNode.classLike cname _ _ _) :: _ =>
              match cname with
              | some className => some (className ++ '.' :: memberName)
              | none => some memberName
          | (_, TsNode.objectLiteral _ _ _) :: rest =>
              match getTypeScriptObjectLiteralOwnerName rest.head? with
              | some ownerName => some (ownerName ++ '.' :: memberName)
              | none => some memberName
          | _ => some memberName

/-- references.ts lines 559-575. -/
def getTypeScriptPropertyAssignmentLabel (aname : TsPropName)
    (ancs : List (ChildRole × TsNode)) : Option Str :=
  match getTypeScriptPropertyNameText aname with
  | none => none
  | some propertyName =>
      match ancs with
      | (_, TsNode.objectLiteral _ _ _) :: rest =>
          match getTypeScriptObjectLiteralOwnerName rest.head? with
          | some ownerName => some (ownerName ++ '.' :: propertyName)
          | none => some propertyName
      | _ => some propertyName

/-- references.ts lines 501-557: classification of a node into a labelled
entry; every entry carries the state's `relativePath` and `lineText`. -/
def getTypeScriptEntryFromNode (node : TsNode) (ancs : List (ChildRole × TsNode))
    (relativePath lineText : Str) : Option ReferenceEntry :=
  match node with
  | TsNode.functionDeclaration (some n) _ _ _ =>
      some ⟨relativePath, lineText, some n⟩
  | TsNode.variableDeclaration (some n) (some i) _ _ =>
      match i with
      | TsNode.arrowFunction _ _ _ => some ⟨relativePath, lineText, some n⟩
      | TsNode.functionExpression _ _ _ => some ⟨relativePath, lineText, some n⟩
      | _ => none
  | TsNode.methodDeclaration mname _ _ _ =>
      (getTypeScriptMemberLabel mname ancs).map
        (fun label => ⟨relativePath, lineText, some label⟩)
  | TsNode.propertyDeclaration pname _ _ _ =>
      (getTypeScriptMemberLabel pname ancs).map
        (fun label => ⟨relativePath, lineText, some label⟩)
  | TsNode.propertyAssignment aname _ _ _ =>
      (getTypeScriptPropertyAssignmentLabel aname ancs).map
        (fun label => ⟨relativePath, lineText, some label⟩)
  | _ => none

/-- references.ts lines 11-21 (the traversal state; the mutable module-level
`currentTsTraversalState` routing is replaced by explicit threading). -/
structure TsState where
  selectionStart : Nat
  selectionEnd : Nat
  focusPos : Nat
  entries : List ReferenceEntry
  enclosingCandidate : Option (TsNode × List (ChildRole × TsNode))
  enclosingCandidateWidth : Option Nat
  relativePath : Str
  lineText : Str

/-- references.ts lines 497-499. -/
def rangesIntersect (aStart aEnd bStart bEnd : Nat) : Bool :=
  decide (aStart ≤ bEnd) && decide (bStart ≤ aEnd)

/-- references.ts lines 650-659: deduplicate by `path:lineText:label`. -/
def entryKey (e : ReferenceEntry) : Str :=
  e.relativePath ++ ':' :: e.lineText ++ ':' :: (e.label.getD [])

def addUniqueEntry (entries : List ReferenceEntry) (entry : ReferenceEntry) :
    List ReferenceEntry :=
  if entries.any (fun existing => decide (entryKey existing = entryKey entry)) then entries
  else entries ++ [entry]

/-- The two per-node checks of `visitTsNode` (lines 468-488): enclosing
candidate tracking (strictly narrower span wins) and selection-intersection
classification. -/
def visitChecks (node : TsNode) (ancs : List (ChildRole × TsNode)) (st : TsState) :
    TsState :=
  (fun st1 =>
    if rangesIntersect (nodeStart node) (nodeEnd node) st1.selectionStart st1.selectionEnd then
      match getTypeScriptEntryFromNode node ancs st1.relativePath st1.lineText with
      | some entry => { st1 with entries := addUniqueEntry st1.entries entry }
      | none => st1
    else st1)
  (if nodeStart node ≤ st.focusPos ∧ st.focusPos ≤ nodeEnd node then
    match st.enclosingCandidateWidth with
    | none =>
        { st with enclosingCandidate := some (node, ancs),
                  enclosingCandidateWidth := some (nodeEnd node - nodeStart node) }
    | some w =>
        if nodeEnd node - nodeStart node < w then
          { st with enclosingCandidate := some (node, ancs),
                    enclosingCandidateWidth := some (nodeEnd node - nodeStart node) }
        else st
  else st)

mutual

/-- Node count bound used as traversal fuel (computable substitute for the
derived `sizeOf`). -/
def tsSize : TsNode → Nat
  | .functionDeclaration _ _ _ body => 1 + tsSizeList body
  | .variableDeclaration _ (some i) _ _ => 1 + tsSize i
  | .variableDeclaration _ none _ _ => 1
  | .arrowFunction _ _ body => 1 + tsSizeList body
  | .functionExpression _ _ body => 1 + tsSizeList body
  | .methodDeclaration _ _ _ body => 1 + tsSizeList body
  | .propertyDeclaration _ (some i) _ _ => 1 + tsSize i
  | .propertyDeclaration _ none _ _ => 1
  | .propertyAssignment _ i _ _ => 1 + tsSize i
  | .classLike _ _ _ members => 1 + tsSizeList members
  | .objectLiteral _ _ props => 1 + tsSizeList props
  | .binaryExpression l r _ _ => 1 + tsSize l + tsSize r
  | .identifier _ _ _ => 1
  | .propertyAccess _ _ _ => 1
  | .otherNode _ _ children => 1 + tsSizeList children

def tsSizeList : List TsNode → Nat
  | [] => 1
  | c :: cs => 1 + tsSize c + tsSizeList cs

end

mutual

/-- references.ts lines 468-495: recursive descent (`ts.forEachChild`),
fuelled so that the definition is kernel-computable; `tsSize node` fuel
always suffices (each recursive call passes a strict subterm). -/
def visitTsNode : Nat → TsNode → List (ChildRole × TsNode) → TsState → TsState
  | 0, _, _, st => st
  | fuel + 1, node, ancs, st =>
      (fun st2 =>
        match node with
        | TsNode.functionDeclaration _ _ _ body =>
            visitList fuel body ChildRole.structChild node ancs st2
        | TsNode.variableDeclaration _ (some i) _ _ =>
            visitTsNode fuel i ((ChildRole.varInit, node) :: ancs) st2
        | TsNode.variableDeclaration _ none _ _ => st2
        | TsNode.arrowFunction _ _ body =>
            visitList fuel body ChildRole.structChild node ancs st2
        | TsNode.functionExpression _ _ body =>
            visitList fuel body ChildRole.structChild node ancs st2
        | TsNode.methodDeclaration _ _ _ body =>
            visitList fuel body ChildRole.structChild node ancs st2
        | TsNode.propertyDeclaration _ (some i) _ _ =>
            visitTsNode fuel i ((ChildRole.structChild, node) :: ancs) st2
        | TsNode.propertyDeclaration _ none _ _ => st2
        | TsNode.propertyAssignment _ i _ _ =>
            visitTsNode fuel i ((ChildRole.structChild, node) :: ancs) st2
        | TsNode.classLike _ _ _ members =>
            visitList fuel members ChildRole.structChild node ancs st2
        | TsNode.objectLiteral _ _ props =>
            visitList fuel props ChildRole.structChild node ancs st2
        | TsNode.binaryExpression l r _ _ =>
            visitTsNode fuel r ((ChildRole.binRight, node) :: ancs)
              (visitTsNode fuel l ((ChildRole.binLeft, node) :: ancs) st2)
        | TsNode.identifier _ _ _ => st2
        | TsNode.propertyAccess _ _ _ => st2
        | TsNode.otherNode _ _ children =>
            visitList fuel children ChildRole.structChild node ancs st2)
      (visitChecks node ancs st)

def visitList : Nat → List TsNode → ChildRole → TsNode →
    List (ChildRole × TsNode) → TsState → TsState
  | 0, _, _, _, _, st => st
  | _ + 1, [], _, _, _, st => st
  | fuel + 1, c :: cs, role, parent, ancs, st =>
      visitList fuel cs role parent ancs
        (visitTsNode fuel c ((role, parent) :: ancs) st)

end

/-- references.ts lines 661-675: walk the candidate and its ancestors
outward. -/
def findEnclosingTypeScriptLabel (relativePath lineText : Str) :
    TsNode → List (ChildRole × TsNode) → Option Str
  | node, ancs =>
      match node with
      | TsNode.propertyAccess t _ _ => some t
      | _ =>
          match getTypeScriptEntryFromNode node ancs relativePath lineText with
          | some e =>
              match e.label with
              | some l =>
                  if l ≠ [] then some l
                  else
                    match ancs with
                    | [] => none
                    | (_, p) :: rest => findEnclosingTypeScriptLabel relativePath lineText p rest
              | none =>
                  match ancs with
                  | [] => none
                  | (_, p) :: rest => findEnclosingTypeScriptLabel relativePath lineText p rest
          | none =>
              match ancs with
              | [] => none
              | (_, p) :: rest => findEnclosingTypeScriptLabel relativePath lineText p rest
termination_by node ancs => ancs.length

/-- references.ts lines 407-453: the parse (`ts.createSourceFile`) is the
external parser's output, passed in as `sourceFile`. -/
def addTypeScriptEntries (entries : List ReferenceEntry) (relativePath lineText : Str)
    (sourceFile : TsNode) (selectionStart selectionEnd focusPos : Nat) :
    List ReferenceEntry :=
  (fun st =>
    (fun entries2 =>
      if entries2 ≠ [] then entries2
      else
        match st.enclosingCandidate with
        | some (cand, candAncs) =>
            entries2 ++ [⟨relativePath, lineText,
              findEnclosingTypeScriptLabel relativePath lineText cand candAncs⟩]
        | none => entries2)
    (entries ++ st.entries))
  (visitTsNode (tsSize sourceFile) sourceFile []
    ⟨selectionStart, selectionEnd, focusPos, [], none, none, relativePath, lineText⟩)

/-! ## Reference resolver orchestrator (references.ts lines 42-106, 121-134) -/

/-- references.ts lines 121-134. -/
def addHtmlEntries (entries : List ReferenceEntry) (relativePath lineText fullText : Str)
    (focusPos : Nat) : List ReferenceEntry :=
  entries ++ [⟨relativePath, lineText, findEnclosingHtmlTagName fullText focusPos⟩]

/-- Host-API model of `document.offsetAt`: lines are split on newlines and
positions are clamped to the line's length. -/
def offsetAt (fullText : Str) (p : Pos) : Nat :=
  ((fullText.splitOn '\n').take p.line).foldl (fun a l => a + l.length + 1) 0 +
    min p.character ((fullText.splitOn '\n').getD p.line []).length

/-- The dispatch of `buildReferencesText` (lines 60-78): the entries the
selected label strategy produces.  `parseTs` stands for the external
`ts.createSourceFile` parser. -/
def strategyEntries (parseTs : Str → TsNode) (relativePath extension fullText : Str)
    (sel : Selection) : List ReferenceEntry :=
  (fun lineText selectionText selectionStart selectionEnd =>
    if extension = ".py".data then
      addPythonEntries [] relativePath lineText fullText selectionText
        (getSelectionLineRange sel).1 (getSelectionLineRange sel).2
        (getSelectionLineRange sel).1
    else if extension = ".ts".data ∨ extension = ".tsx".data ∨
        extension = ".js".data ∨ extension = ".jsx".data then
      addTypeScriptEntries [] relativePath lineText (parseTs fullText)
        (min selectionStart selectionEnd) (max selectionStart selectionEnd)
        (min selectionStart selectionEnd)
    else if extension = ".html".data ∨ extension = ".htm".data then
      addHtmlEntries [] relativePath lineText fullText
        (min selectionStart selectionEnd)
    else [])
  (lineTextOf (getSelectionLineRange sel).1 (getSelectionLineRange sel).2)
  (if selIsEmpty sel then []
   else (fullText.drop (offsetAt fullText (selStart sel))).take
     (offsetAt fullText (selEnd sel) - offsetAt fullText (selStart sel)))
  (offsetAt fullText (selStart sel))
  (offsetAt fullText (selEnd sel))

/-- references.ts lines 80-86: the single fallback entry when the strategy
produced nothing. -/
def buildEntries (parseTs : Str → TsNode) (relativePath extension fullText : Str)
    (sel : Selection) : List ReferenceEntry :=
  (fun entries =>
    if entries = [] then
      [⟨relativePath,
        lineTextOf (getSelectionLineRange sel).1 (getSelectionLineRange sel).2, none⟩]
    else entries)
  (strategyEntries parseTs relativePath extension fullText sel)

/-- One rendered output line (`${path}:${lineText}${labelSuffix}`, label
suffix only for a truthy label, JS-style: the empty string is falsy). -/
def formatLine (e : ReferenceEntry) : Str :=
  e.relativePath ++ ':' :: e.lineText ++
    (match e.label with
     | some l => if l ≠ [] then ' ' :: l else []
     | none => [])

/-- references.ts lines 91-106: deduplicate rendered lines, keep first-seen
order, join with newlines. -/
def formatEntries (entries : List ReferenceEntry) : Str :=
  List.intercalate ['\n']
    (entries.foldl (fun acc e =>
      if formatLine e ∈ acc then acc else acc ++ [formatLine e]) [])

/-- references.ts lines 42-89. -/
def buildReferencesText (parseTs : Str → TsNode) (relativePath extension fullText : Str)
    (sel : Selection) : Str :=
  formatEntries (buildEntries parseTs relativePath extension fullText sel)

/-- C6: for every strategy result, if the dispatched label strategy produced
zero entries the resolver's entry list is exactly the single fallback entry
`(path, selection line range, no label)`; consequently the final entry list
is never empty (and the total function `buildReferencesText` always returns
a rendered text). -/
theorem buildEntries_fallback (parseTs : Str → TsNode)
    (relativePath extension fullText : Str) (sel : Selection) :
    buildEntries parseTs relativePath extension fullText sel ≠ [] ∧
    (strategyEntries parseTs relativePath extension fullText sel = [] →
      buildEntries parseTs relativePath extension fullText sel =
        [⟨relativePath,
          lineTextOf (getSelectionLineRange sel).1 (getSelectionLineRange sel).2,
          none⟩]) := by
  unfold buildEntries
  beta_reduce
  by_cases h : strategyEntries parseTs relativePath extension fullText sel = []
  · rw [h]
    exact ⟨by simp, fun _ => by simp⟩
  · rw [if_neg h]
    exact ⟨h, fun hc => absurd hc h⟩

theorem buildEntries_fallback_witness :
    buildEntries (fun _ => TsNode.otherNode 0 0 []) "a.txt".data ".txt".data
        "hello".data ⟨⟨0, 0⟩, ⟨0, 0⟩⟩ =
      [⟨"a.txt".data, "1".data, none⟩] :=
  (buildEntries_fallback (fun _ => TsNode.otherNode 0 0 []) "a.txt".data ".txt".data
    "hello".data ⟨⟨0, 0⟩, ⟨0, 0⟩⟩).2 (by decide)

/-! ## Every TS entry carries the selection's line text (C1) -/

/-- 1-based line of an offset via line/column mapping. -/
def lineOfOffset (text : Str) (off : Nat) : Nat :=
  ((text.take off).filter (fun c => decide (c = '\n'))).length + 1

/-- `st2` extends `st`: the path/line fields are unchanged and every entry is
either inherited or carries the state's path and line text. -/
def GoodExt (st st2 : TsState) : Prop :=
  st2.relativePath = st.relativePath ∧ st2.lineText = st.lineText ∧
  ∀ e ∈ st2.entries,
    e ∈ st.entries ∨ (e.lineText = st.lineText ∧ e.relativePath = st.relativePath)

theorem GoodExt.rfl (st : TsState) : GoodExt st st :=
  ⟨Eq.refl _, Eq.refl _, fun e he => Or.inl he⟩

theorem GoodExt.trans {a b c : TsState} (h1 : GoodExt a b) (h2 : GoodExt b c) :
    GoodExt a c := by
  obtain ⟨hr1, hl1, he1⟩ := h1
  obtain ⟨hr2, hl2, he2⟩ := h2
  refine ⟨hr2.trans hr1, hl2.trans hl1, ?_⟩
  intro e he
  rcases he2 e he with hm | ⟨hel, her⟩
  · exact he1 e hm
  · exact Or.inr ⟨hel.trans hl1, her.trans hr1⟩

theorem getTypeScriptEntryFromNode_fields (node : TsNode)
    (ancs : List (ChildRole × TsNode)) (rel lt : Str) (e : ReferenceEntry)
    (h : getTypeScriptEntryFromNode node ancs rel lt = some e) :
    e.lineText = lt ∧ e.relativePath = rel := by
  cases node with
  | functionDeclaration name s f body =>
      cases name with
      | none => exact Option.noConfusion h
      | some n =>
          injection h with h
          subst h
          exact ⟨rfl, rfl⟩
  | variableDeclaration name vinit s f =>
      cases name with
      | none => exact Option.noConfusion h
      | some n =>
          cases vinit with
          | none => exact Option.noConfusion h
          | some i =>
              cases i <;>
                first
                | exact Option.noConfusion h
                | (injection h with h; subst h; exact ⟨rfl, rfl⟩)
  | methodDeclaration mname s f body =>
      obtain ⟨l, -, rfl⟩ := Option.map_eq_some'.mp h
      exact ⟨rfl, rfl⟩
  | propertyDeclaration pname pinit s f =>
      obtain ⟨l, -, rfl⟩ := Option.map_eq_some'.mp h
      exact ⟨rfl, rfl⟩
  | propertyAssignment aname ainit s f =>
      obtain ⟨l, -, rfl⟩ := Option.map_eq_some'.mp h
      exact ⟨rfl, rfl⟩
  | arrowFunction s f body => exact Option.noConfusion h
  | functionExpression s f body => exact Option.noConfusion h
  | classLike cname s f members => exact Option.noConfusion h
  | objectLiteral s f props => exact Option.noConfusion h
  | binaryExpression l r s f => exact Option.noConfusion h
  | identifier t s f => exact Option.noConfusion h
  | propertyAccess t s f => exact Option.noConfusion h
  | otherNode s f children => exact Option.noConfusion h

theorem mem_addUniqueEntry (entries : List ReferenceEntry) (x e : ReferenceEntry)
    (h : e ∈ addUniqueEntry entries x) : e ∈ entries ∨ e = x := by
  unfold addUniqueEntry at h
  split at h
  · exact Or.inl h
  · rcases List.mem_append.mp h with hm | hm
    · exact Or.inl hm
    · exact Or.inr (List.mem_singleton.mp hm)

theorem visitChecks_good (node : TsNode) (ancs : List (ChildRole × TsNode))
    (st : TsState) : GoodExt st (visitChecks node ancs st) := by
  unfold visitChecks
  have hst1 : ∀ st1 : TsState,
      st1.relativePath = st.relativePath → st1.lineText = st.lineText →
      st1.entries = st.entries →
      GoodExt st
        (if rangesIntersect (nodeStart node) (nodeEnd node) st1.selectionStart
            st1.selectionEnd = true then
          match getTypeScriptEntryFromNode node ancs st1.relativePath st1.lineText with
          | some entry => { st1 with entries := addUniqueEntry st1.entries entry }
          | none => st1
        else st1) := by
    intro st1 hr hl hes
    split
    · cases hg : getTypeScriptEntryFromNode node ancs st1.relativePath st1.lineText with
      | none => exact ⟨hr, hl, fun e he => Or.inl (hes ▸ he)⟩
      | some entry =>
          refine ⟨hr, hl, ?_⟩
          intro e he
          simp only at he
          rcases mem_addUniqueEntry _ _ _ he with hm | hm
          · exact Or.inl (hes ▸ hm)
          · subst hm
            obtain ⟨h1, h2⟩ := getTypeScriptEntryFromNode_fields node ancs _ _ _ hg
            exact Or.inr ⟨h1.trans hl, h2.trans hr⟩
    · exact ⟨hr, hl, fun e he => Or.inl (hes ▸ he)⟩
  split
  · split
    · exact hst1 _ rfl rfl rfl
    · split
      · exact hst1 _ rfl rfl rfl
      · exact hst1 _ rfl rfl rfl
  · exact hst1 _ rfl rfl rfl

theorem visit_good (fuel : Nat) :
    (∀ node ancs st, GoodExt st (visitTsNode fuel node ancs st)) ∧
    (∀ l role parent ancs st, GoodExt st (visitList fuel l role parent ancs st)) := by
  induction fuel with
  | zero => exact ⟨fun _ _ st => GoodExt.rfl st, fun _ _ _ _ st => GoodExt.rfl st⟩
  | succ fuel ih =>
      obtain ⟨ihN, ihL⟩ := ih
      constructor
      · intro node ancs st
        have hchecks := visitChecks_good node ancs st
        cases node with
        | functionDeclaration name s f body => exact hchecks.trans (ihL _ _ _ _ _)
        | variableDeclaration nameIdent vinit s f =>
            cases vinit with
            | some i => exact hchecks.trans (ihN _ _ _)
            | none => exact hchecks
        | arrowFunction s f body => exact hchecks.trans (ihL _ _ _ _ _)
        | functionExpression s f body => exact hchecks.trans (ihL _ _ _ _ _)
        | methodDeclaration mname s f body => exact hchecks.trans (ihL _ _ _ _ _)
        | propertyDeclaration pname pinit s f =>
            cases pinit with
            | some i => exact hchecks.trans (ihN _ _ _)
            | none => exact hchecks
        | propertyAssignment aname ainit s f => exact hchecks.trans (ihN _ _ _)
        | classLike cname s f members => exact hchecks.trans (ihL _ _ _ _ _)
        | objectLiteral s f props => exact hchecks.trans (ihL _ _ _ _ _)
        | binaryExpression l r s f =>
            exact hchecks.trans ((ihN _ _ _).trans (ihN _ _ _))
        | identifier t s f => exact hchecks
        | propertyAccess t s f => exact hchecks
        | otherNode s f children => exact hchecks.trans (ihL _ _ _ _ _)
      · intro l role parent ancs st
        cases l with
        | nil => exact GoodExt.rfl st
        | cons c cs => exact (ihN _ _ _).trans (ihL _ _ _ _ _)

/-- C1 (amended): every entry the structural strategy emits carries the
selection's rendered line range (`state.lineText`) and the state's relative
path — entries do not report their own node's start line.  (The fallback
entry also carries them.) -/
theorem addTypeScriptEntries_lineText (relativePath lineText : Str)
    (sourceFile : TsNode) (s e f : Nat) :
    ∀ entry ∈ addTypeScriptEntries [] relativePath lineText sourceFile s e f,
      entry.lineText = lineText ∧ entry.relativePath = relativePath := by
  intro entry hmem
  unfold addTypeScriptEntries at hmem
  have hgood := (visit_good (tsSize sourceFile)).1 sourceFile []
    ⟨s, e, f, [], none, none, relativePath, lineText⟩
  obtain ⟨hr, hl, hes⟩ := hgood
  set st := visitTsNode (tsSize sourceFile) sourceFile []
    ⟨s, e, f, [], none, none, relativePath, lineText⟩ with hstdef
  simp only at hmem
  split at hmem
  · rcases hes entry (by simpa using hmem) with hm | hm
    · cases hm
    · exact hm
  · split at hmem
    · rcases List.mem_append.mp hmem with hm | hm
      · rcases hes entry (by simpa using hm) with h2 | h2
        · cases h2
        · exact h2
      · rw [List.mem_singleton.mp hm]
        exact ⟨rfl, rfl⟩
    · rcases hes entry (by simpa using hmem) with h2 | h2
      · cases h2
      · exact h2

/-- Concrete buffer `class C {\n  m1() {}\n  m2() {}\n}` with its parsed
model: the two methods start on lines 2 and 3. -/
def exText : Str := "class C \x7b\n  m1() \x7b\x7d\n  m2() \x7b\x7d\n\x7d".data

def exM1 : TsNode := .methodDeclaration (some (.ident "m1".data)) 12 19 []

def exM2 : TsNode := .methodDeclaration (some (.ident "m2".data)) 22 29 []

def exClass : TsNode := .classLike (some "C".data) 0 31 [exM1, exM2]

def exSrc : TsNode := .otherNode 0 31 [exClass]

def exSel : Selection := ⟨⟨1, 0⟩, ⟨2, 9⟩⟩

/-- C1 counterexample: selecting the two method lines of a class whose
methods start on lines 2 and 3 yields two entries whose line texts are both
the selection's range `2-3` — equal, not the per-node lines `2` and `3` the
claim requires. -/
theorem tsEntries_not_per_node_lines_cex :
    buildReferencesText (fun _ => exSrc) "src/a.ts".data ".ts".data exText exSel =
      "src/a.ts:2-3 C.m1\nsrc/a.ts:2-3 C.m2".data ∧
    lineOfOffset exText (nodeStart exM1) = 2 ∧
    lineOfOffset exText (nodeStart exM2) = 3 ∧
    (addTypeScriptEntries [] "src/a.ts".data "2-3".data exSrc 10 29 10).map
      (fun e => e.lineText) = ["2-3".data, "2-3".data] := by decide

theorem addTypeScriptEntries_lineText_witness :
    (⟨"src/a.ts".data, "2-3".data, some "C.m1".data⟩ : ReferenceEntry).lineText =
        "2-3".data ∧
      (⟨"src/a.ts".data, "2-3".data, some "C.m1".data⟩ : ReferenceEntry).relativePath =
        "src/a.ts".data :=
  addTypeScriptEntries_lineText "src/a.ts".data "2-3".data exSrc 10 29 10
    ⟨"src/a.ts".data, "2-3".data, some "C.m1".data⟩ (by decide)

end CQR
